import Mathlib

/-!
Shallow embedding of the template builder in src/main/lib/builder.py.

The Python code works on ordinary strings; here strings are modelled as
List Char and every Python string primitive used by the builder
(str.strip, str.lower, str.split, str.replace, str.rstrip, int(_, 16),
str(_)) gets a faithful executable Lean counterpart.  On top of those the
flag parser (Builder.parse), the placeholder table (Builder.mapping) and
the recursive substitution (Builder.replace_placeholders) are defined,
and the theorems about them follow at the end of the file.
-/

/-- The open-brace character, U+007B. -/
def obr : Char := Char.ofNat 123

/-- The close-brace character, U+007D. -/
def cbr : Char := Char.ofNat 125

/-- Whitespace as recognized by Python str.strip() on the ASCII range. -/
def isPySpace (c : Char) : Bool :=
  c == ' ' || c == '\t' || c == '\n' || c == '\r' ||
    c == Char.ofNat 11 || c == Char.ofNat 12

/-- The ASCII upper-to-lower case table of Python str.lower() (the only
cased characters the flag DSL manipulates). -/
def lowerPairs : List (Char × Char) :=
  [('A','a'),('B','b'),('C','c'),('D','d'),('E','e'),('F','f'),('G','g'),
   ('H','h'),('I','i'),('J','j'),('K','k'),('L','l'),('M','m'),('N','n'),
   ('O','o'),('P','p'),('Q','q'),('R','r'),('S','s'),('T','t'),('U','u'),
   ('V','v'),('W','w'),('X','x'),('Y','y'),('Z','z')]

/-- Python str.lower() on one character. -/
def pyToLower (c : Char) : Char :=
  match lowerPairs.find? (fun p => p.1 == c) with
  | some p => p.2
  | none => c

/-- str.lower() mapped over a whole string. -/
def pyLower (s : List Char) : List Char := s.map pyToLower

/-- Leading-whitespace strip, the left half of Python str.strip(). -/
def pyLstrip (s : List Char) : List Char := s.dropWhile isPySpace

/-- Trailing-whitespace strip, the right half of Python str.strip(). -/
def pyRstrip (s : List Char) : List Char :=
  (s.reverse.dropWhile isPySpace).reverse

/-- Python str.strip() with no argument. -/
def pyStrip (s : List Char) : List Char := pyRstrip (pyLstrip s)

/-- Python str.strip(cs): repeatedly remove characters of the set cs from
both ends of the string. -/
def pyStripChars (cs : List Char) (s : List Char) : List Char :=
  ((s.dropWhile (fun c => cs.contains c)).reverse.dropWhile
    (fun c => cs.contains c)).reverse

/-- Python str.rstrip(cs): repeatedly remove characters of the set cs from
the right end of the string. -/
def pyRstripChars (cs : List Char) (s : List Char) : List Char :=
  (s.reverse.dropWhile (fun c => cs.contains c)).reverse

/-- Python s.split(sep, 1) restricted to a one-character separator: the
text before the first occurrence of the separator and the text after it,
or none when the separator does not occur (where Python unpacking raises). -/
def splitFirst (sep : Char) : List Char → Option (List Char × List Char)
  | [] => none
  | c :: s =>
    if c = sep then some ([], s)
    else (splitFirst sep s).map (fun p => (c :: p.1, p.2))

/-- Whether the pattern p occurs as a contiguous substring. -/
def occursIn (p : List Char) : List Char → Bool
  | [] => p.isEmpty
  | c :: s => p.isPrefixOf (c :: s) || occursIn p s

/-- Fuelled worker for pyReplace; the fuel only serves to make the
definition structurally recursive, it is always run with enough fuel. -/
def pyReplaceF (p v : List Char) : Nat → List Char → List Char
  | _, [] => []
  | 0, s => s
  | fuel + 1, c :: s =>
    if p ≠ [] ∧ p.isPrefixOf (c :: s) then
      v ++ pyReplaceF p v fuel (List.drop (p.length - 1) s)
    else
      c :: pyReplaceF p v fuel s

/-- Python text.replace(p, v): replace every occurrence of p, scanning
left to right without overlap, by v. -/
def pyReplace (p v s : List Char) : List Char := pyReplaceF p v s.length s

/-- Fuelled worker for pySplit. -/
def pySplitF (sep : List Char) : Nat → List Char → List (List Char)
  | _, [] => [[]]
  | 0, s => [s]
  | fuel + 1, c :: s =>
    if sep ≠ [] ∧ sep.isPrefixOf (c :: s) then
      [] :: pySplitF sep fuel (List.drop (sep.length - 1) s)
    else
      match pySplitF sep fuel s with
      | [] => [[c]]
      | h :: t => (c :: h) :: t

/-- Python text.split(sep): the pieces of the text between the
non-overlapping occurrences of sep, scanning left to right. -/
def pySplit (sep s : List Char) : List (List Char) := pySplitF sep s.length s

/-- Decimal digit character. -/
def digitChar (n : Nat) : Char := Char.ofNat (48 + n)

/-- Fuelled worker for natRepr. -/
def natReprF : Nat → Nat → List Char
  | 0, _ => []
  | fuel + 1, n =>
    if n < 10 then [digitChar n]
    else natReprF fuel (n / 10) ++ [digitChar (n % 10)]

/-- Decimal representation of a natural number, as Python str() writes it. -/
def natRepr (n : Nat) : List Char := natReprF (n + 1) n

/-- Decimal representation of an integer, as Python str() writes it. -/
def intRepr (n : Int) : List Char :=
  if n < 0 then '-' :: natRepr (-n).toNat else natRepr n.toNat

/-- The Python values that occur in a placeholder table built by
Builder.mapping: strings, integers and None. -/
inductive PVal
  | pstr (s : List Char)
  | pint (n : Int)
  | pnone
deriving DecidableEq

/-- Python truthiness of a table value: None, 0 and the empty string are
falsy, everything else is truthy. -/
def pytruthy : PVal → Bool
  | .pstr s => !s.isEmpty
  | .pint n => n != 0
  | .pnone => false

/-- Python str() of a table value. -/
def pyToStr : PVal → List Char
  | .pstr s => s
  | .pint n => intRepr n
  | .pnone => ("None").data

/-- A placeholder table: tokens paired with their values, kept in the
insertion order of the Python dict. -/
abbrev Table := List (List Char × PVal)

/-- The string branch of Builder.replace_placeholders: for every table
entry in order, if the value is truthy replace all occurrences of the
token by str(value), otherwise leave the text alone. -/
def applyTable : Table → List Char → List Char
  | [], s => s
  | pr :: rest, s =>
    applyTable rest (if pytruthy pr.2 then pyReplace pr.1 (pyToStr pr.2) s else s)

/-- The characters int(s, 16) accepts as digits. -/
def isHexDigitPy (c : Char) : Bool :=
  c.isDigit || (decide ('a' ≤ c) && decide (c ≤ 'f')) ||
    (decide ('A' ≤ c) && decide (c ≤ 'F'))

/-- Numeric value of a base-16 digit character. -/
def hexVal (c : Char) : Nat :=
  if c.isDigit then c.toNat - 48
  else if decide (c ≤ 'F') then c.toNat - 55
  else c.toNat - 87

/-- Remove at most one leading underscore (the one int(s, 16) allows right
after the 0x prefix). -/
def dropOneUnderscore : List Char → List Char
  | '_' :: r => r
  | s => s

/-- Python int(s, 16), inner digit loop: hex digits with single
underscores allowed between digits. -/
def hexLoop : Nat → List Char → Option Nat
  | acc, [] => some acc
  | acc, '_' :: c :: rest =>
    if isHexDigitPy c then hexLoop (acc * 16 + hexVal c) rest else none
  | acc, c :: rest =>
    if isHexDigitPy c then hexLoop (acc * 16 + hexVal c) rest else none

/-- Python int(s, 16): the digit sequence after the optional prefix. -/
def hexCore (s : List Char) : Option Nat :=
  match s with
  | [] => none
  | '_' :: _ => none
  | _ => hexLoop 0 s

/-- Python int(s, 16): optional 0x / 0X prefix, a single underscore being
allowed right after the prefix. -/
def hexBody (s : List Char) : Option Nat :=
  match s with
  | '0' :: 'x' :: rest => hexCore (dropOneUnderscore rest)
  | '0' :: 'X' :: rest => hexCore (dropOneUnderscore rest)
  | _ => hexCore s

/-- Python int(s, 16): surrounding whitespace, optional sign, optional
0x prefix, hex digits with single underscores between digits; none when
Python would raise ValueError. -/
def pyIntHex (s : List Char) : Option Int :=
  match pyStrip s with
  | '+' :: r => (hexBody r).map Int.ofNat
  | '-' :: r => (hexBody r).map (fun n => -(n : Int))
  | r => (hexBody r).map Int.ofNat

example : pyReplace (("ab").data) (("X").data) (("zababy").data) = ("zXXy").data := by rfl
example : pySplit (("$v").data) (("a$vb$v").data) = [("a").data, ("b").data, ("").data] := by rfl
example : pyStrip ((" a b ").data) = ("a b").data := by rfl
example : pyStripChars [obr, cbr] (("\x7b\x7btitle\x7d").data) = ("title").data := by rfl
example : intRepr (-1) = ("-1").data := by rfl
example : intRepr 16711680 = ("16711680").data := by rfl
example : applyTable [(("\x7ba\x7d").data, .pint 0), (("\x7bb\x7d").data, .pstr (("7").data))]
    (("\x7ba\x7d \x7bb\x7d").data) = ("\x7ba\x7d 7").data := by rfl

example : pyIntHex (("FF0000").data) = some 16711680 := by rfl
example : pyIntHex (("zz").data) = none := by rfl
example : pyIntHex (("0x_Ff").data) = some 255 := by rfl
example : pyIntHex (("-10").data) = some (-16) := by rfl
example : pyIntHex (("f_f").data) = some 255 := by rfl
example : pyIntHex (("f__f").data) = none := by rfl
example : pyIntHex (("_f").data) = none := by rfl
example : pyIntHex (("").data) = none := by rfl

/-- The errors Builder.parse can raise (both are ValueError in Python:
tuple unpacking with no colon, and int() on a non-hex color value). -/
inductive ParseError
  | MalformedSegment
  | InvalidColor
deriving DecidableEq

/-- The eight recognized flag keys, i.e. the descriptor fields. -/
inductive FName
  | title
  | description
  | color
  | url
  | author
  | footer
  | thumbnail
  | image
deriving DecidableEq

/-- A value stored in a descriptor field: a string, or for color an int. -/
inductive FVal
  | fstr (s : List Char)
  | fint (n : Int)
deriving DecidableEq

/-- The Card Descriptor: the Builder attributes set in __init__ and filled
in by parse. -/
structure CardDesc where
  title : Option (List Char) := none
  description : Option (List Char) := none
  color : Option Int := none
  url : Option (List Char) := none
  author : Option (List Char) := none
  footer : Option (List Char) := none
  thumbnail : Option (List Char) := none
  image : Option (List Char) := none
deriving DecidableEq

/-- The all-unset descriptor produced by Builder.__init__. -/
def emptyDesc : CardDesc := {}

def kwTitle : List Char := ("title").data
def kwDescription : List Char := ("description").data
def kwColor : List Char := ("color").data
def kwUrl : List Char := ("url").data
def kwAuthor : List Char := ("author").data
def kwFooter : List Char := ("footer").data
def kwThumbnail : List Char := ("thumbnail").data
def kwImage : List Char := ("image").data

/-- The list of the eight recognized key strings. -/
def recognizedKeys : List (List Char) :=
  [kwTitle, kwDescription, kwColor, kwUrl, kwAuthor, kwFooter, kwThumbnail, kwImage]

/-- The name string of each field. -/
def fldName : FName → List Char
  | .title => kwTitle
  | .description => kwDescription
  | .color => kwColor
  | .url => kwUrl
  | .author => kwAuthor
  | .footer => kwFooter
  | .thumbnail => kwThumbnail
  | .image => kwImage

/-- The if/elif dispatch of Builder.parse on the normalized key. -/
def fnameOf (key : List Char) : Option FName :=
  if key = kwTitle then some .title
  else if key = kwDescription then some .description
  else if key = kwColor then some .color
  else if key = kwUrl then some .url
  else if key = kwAuthor then some .author
  else if key = kwFooter then some .footer
  else if key = kwThumbnail then some .thumbnail
  else if key = kwImage then some .image
  else none

/-- Store a value into the named descriptor field (the assignment in the
matching branch of the parse dispatch). -/
def setF : FName → FVal → CardDesc → CardDesc
  | .title, .fstr s, d => { d with title := some s }
  | .description, .fstr s, d => { d with description := some s }
  | .color, .fint n, d => { d with color := some n }
  | .url, .fstr s, d => { d with url := some s }
  | .author, .fstr s, d => { d with author := some s }
  | .footer, .fstr s, d => { d with footer := some s }
  | .thumbnail, .fstr s, d => { d with thumbnail := some s }
  | .image, .fstr s, d => { d with image := some s }
  | _, _, d => d

/-- Read the named descriptor field. -/
def getF : FName → CardDesc → Option FVal
  | .title, d => d.title.map .fstr
  | .description, d => d.description.map .fstr
  | .color, d => d.color.map .fint
  | .url, d => d.url.map .fstr
  | .author, d => d.author.map .fstr
  | .footer, d => d.footer.map .fstr
  | .thumbnail, d => d.thumbnail.map .fstr
  | .image, d => d.image.map .fstr

/-- Key normalization of Builder.parse, line 56:
key.strip().lower().strip("{}"). -/
def normKey (k : List Char) : List Char :=
  pyStripChars [obr, cbr] (pyLower (pyStrip k))

/-- Value normalization of Builder.parse, line 57:
value.strip().rstrip("}"). -/
def normValue (v : List Char) : List Char :=
  pyRstripChars [cbr] (pyStrip v)

/-- The skipped sentinel segment: the literal marker, lower case. -/
def sentinelStr : List Char := ("\x7bembed\x7d").data

/-- The separator Builder.parse splits the flag string on. -/
def dvSep : List Char := ("$v").data

/-- The dispatch of Builder.parse on a split key:value pair (lines
56-74): normalize, select the field, store the value. -/
def parseKV (d : CardDesc) (k v : List Char) : Except ParseError CardDesc :=
  match fnameOf (normKey k) with
  | none => .ok d
  | some .color =>
    match pyIntHex (normValue v) with
    | some n => .ok (setF .color (.fint n) d)
    | none => .error .InvalidColor
  | some f => .ok (setF f (.fstr (normValue v)) d)

/-- Processing of one flag segment by Builder.parse (loop body of lines
51 to 74). -/
def parseSeg (d : CardDesc) (attr : List Char) : Except ParseError CardDesc :=
  if pyLower (pyStrip attr) = sentinelStr then .ok d
  else
    match splitFirst ':' attr with
    | none => .error .MalformedSegment
    | some (k, v) => parseKV d k v

/-- Builder.parse over an already-split list of segments, threading the
descriptor through and stopping at the first raised error. -/
def parseSegs : List (List Char) → CardDesc → Except ParseError CardDesc
  | [], d => .ok d
  | a :: as, d =>
    match parseSeg d a with
    | .ok d' => parseSegs as d'
    | .error e => .error e

/-- Builder.parse on a flag string, starting from the all-unset
descriptor of __init__. -/
def parse (flags : List Char) : Except ParseError CardDesc :=
  parseSegs (pySplit dvSep flags) emptyDesc

example : parse (("\x7bembed\x7d$v\x7btitle: Hey\x7d").data) =
    .ok { emptyDesc with title := some (("Hey").data) } := by rfl
example : parse (("\x7btitle: A\x7d$v\x7btitle: B\x7d").data) =
    .ok { emptyDesc with title := some (("B").data) } := by rfl
example : parse (("\x7bcolor: FF0000\x7d").data) =
    .ok { emptyDesc with color := some 16711680 } := by rfl
example : parse (("\x7bcolor: zz\x7d").data) = .error .InvalidColor := by rfl
example : parse (("notakeyvalue").data) = .error .MalformedSegment := by rfl
example : parse (("\x7bunknown: x\x7d").data) = .ok emptyDesc := by rfl

/-- The member data Builder.mapping reads off a discord Member: the user
variant of the Event Context. -/
structure UserCtx where
  id : Int
  mention : List Char
  name : List Char
  display : List Char
  avatar : Option (List Char)
  displayAvatar : List Char
  joinedAt : List Char
  createdAt : List Char
  guildId : Int
  guildName : List Char
  guildIcon : Option (List Char)
  memberCount : Int
  boostCount : Int
  boostTier : Int
deriving DecidableEq

/-- The message data Builder.mapping reads off a discord Message. -/
structure MsgCtx where
  content : List Char
  jumpUrl : List Char
  createdAt : List Char
deriving DecidableEq

def tokUserId : List Char := ("\x7buser.id\x7d").data
def tokUserMention : List Char := ("\x7buser.mention\x7d").data
def tokUserName : List Char := ("\x7buser.name\x7d").data
def tokUserDisplay : List Char := ("\x7buser.display\x7d").data
def tokUserAvatar : List Char := ("\x7buser.avatar\x7d").data
def tokUserDisplayAvatar : List Char := ("\x7buser.display_avatar\x7d").data
def tokUserJoinedAt : List Char := ("\x7buser.joined_at\x7d").data
def tokUserCreatedAt : List Char := ("\x7buser.created_at\x7d").data
def tokGuildId : List Char := ("\x7bguild.id\x7d").data
def tokGuildName : List Char := ("\x7bguild.name\x7d").data
def tokGuildIcon : List Char := ("\x7bguild.icon\x7d").data
def tokGuildMembercount : List Char := ("\x7bguild.membercount\x7d").data
def tokGuildBoostCount : List Char := ("\x7bguild.boost_count\x7d").data
def tokGuildBoostTier : List Char := ("\x7bguild.boost_tier\x7d").data
def tokLevel : List Char := ("\x7blevel\x7d").data
def tokLevelPrevious : List Char := ("\x7blevel.previous\x7d").data
def tokXp : List Char := ("\x7bxp\x7d").data
def tokXpPrevious : List Char := ("\x7bxp.previous\x7d").data
def tokMessageContent : List Char := ("\x7bmessage.content\x7d").data
def tokMessageUrl : List Char := ("\x7bmessage.url\x7d").data
def tokMessageCreatedAt : List Char := ("\x7bmessage.created_at\x7d").data

/-- The table Builder.mapping builds for a user event (lines 103-119). -/
def userTable (u : UserCtx) : Table :=
  [ (tokUserId, .pint u.id),
    (tokUserMention, .pstr u.mention),
    (tokUserName, .pstr u.name),
    (tokUserDisplay, .pstr u.display),
    (tokUserAvatar, u.avatar.elim PVal.pnone PVal.pstr),
    (tokUserDisplayAvatar, .pstr u.displayAvatar),
    (tokUserJoinedAt, .pstr u.joinedAt),
    (tokUserCreatedAt, .pstr u.createdAt),
    (tokGuildId, .pint u.guildId),
    (tokGuildName, .pstr u.guildName),
    (tokGuildIcon, u.guildIcon.elim PVal.pnone PVal.pstr),
    (tokGuildMembercount, .pint u.memberCount),
    (tokGuildBoostCount, .pint u.boostCount),
    (tokGuildBoostTier, .pint u.boostTier) ]

/-- The table Builder.mapping builds for a level event (lines 121-125). -/
def levelTable (level : Int) : Table :=
  [ (tokLevel, .pstr (intRepr level)),
    (tokLevelPrevious, .pstr (intRepr (level - 1))) ]

/-- The table Builder.mapping builds for an xp event (lines 127-131). -/
def xpTable (xp : Int) : Table :=
  [ (tokXp, .pstr (intRepr xp)),
    (tokXpPrevious, .pstr (intRepr (xp - 1))) ]

/-- The table Builder.mapping builds for a message event (lines 133-138). -/
def msgTable (m : MsgCtx) : Table :=
  [ (tokMessageContent, .pstr m.content),
    (tokMessageUrl, .pstr m.jumpUrl),
    (tokMessageCreatedAt, .pstr m.createdAt) ]

/-- Python truthiness of an optional int argument (0 and None are falsy). -/
def truthyOptInt : Option Int → Bool
  | some n => n != 0
  | none => false

/-- Builder.mapping: the placeholder table for the first truthy argument
in the source order of checks, user then level then xp then message, and
the empty table when all are falsy. -/
def mapping (user : Option UserCtx) (message : Option MsgCtx)
    (level : Option Int) (xp : Option Int) : Table :=
  match user with
  | some u => userTable u
  | none =>
    if truthyOptInt level then levelTable (level.getD 0)
    else if truthyOptInt xp then xpTable (xp.getD 0)
    else
      match message with
      | some m => msgTable m
      | none => []

/-- The token set of the user variant. -/
def tokensUser : List (List Char) :=
  [tokUserId, tokUserMention, tokUserName, tokUserDisplay, tokUserAvatar,
   tokUserDisplayAvatar, tokUserJoinedAt, tokUserCreatedAt, tokGuildId,
   tokGuildName, tokGuildIcon, tokGuildMembercount, tokGuildBoostCount,
   tokGuildBoostTier]

/-- The token set of the level variant. -/
def tokensLevel : List (List Char) := [tokLevel, tokLevelPrevious]

/-- The token set of the xp variant. -/
def tokensXp : List (List Char) := [tokXp, tokXpPrevious]

/-- The token set of the message variant. -/
def tokensMessage : List (List Char) :=
  [tokMessageContent, tokMessageUrl, tokMessageCreatedAt]

/-- Every defined token, over all four variants. -/
def allTokens : List (List Char) :=
  tokensUser ++ tokensLevel ++ tokensXp ++ tokensMessage

example (u : UserCtx) : (userTable u).map Prod.fst = tokensUser := by rfl
example (n : Int) : (levelTable n).map Prod.fst = tokensLevel := by rfl
example (n : Int) : (xpTable n).map Prod.fst = tokensXp := by rfl
example (m : MsgCtx) : (msgTable m).map Prod.fst = tokensMessage := by rfl

mutual
/-- A Python value as fed to Builder.replace_placeholders: a string, a
dict, a list, or any other object (here: int, bool, None). -/
inductive PyVal
  | vstr (s : List Char)
  | vint (n : Int)
  | vbool (b : Bool)
  | vnone
  | vdict (es : PyEntries)
  | vlist (xs : PyList)
/-- The elements of a Python list value. -/
inductive PyList
  | nil
  | cons (x : PyVal) (xs : PyList)
/-- The key/value entries of a Python dict value, in insertion order. -/
inductive PyEntries
  | nil
  | cons (k : List Char) (v : PyVal) (rest : PyEntries)
end

mutual
/-- Builder.replace_placeholders (lines 163-189): replace inside a
string, recurse through dict values and list items, return anything else
unchanged. -/
def replacePlaceholders (text : PyVal) (mappings : Table) : PyVal :=
  match text with
  | .vstr s => .vstr (applyTable mappings s)
  | .vdict es => .vdict (replaceEntries es mappings)
  | .vlist xs => .vlist (replaceList xs mappings)
  | other => other
/-- The dict comprehension branch: same keys, recursed values. -/
def replaceEntries (es : PyEntries) (mappings : Table) : PyEntries :=
  match es with
  | .nil => .nil
  | .cons k v rest => .cons k (replacePlaceholders v mappings) (replaceEntries rest mappings)
/-- The list comprehension branch: recursed items in order. -/
def replaceList (xs : PyList) (mappings : Table) : PyList :=
  match xs with
  | .nil => .nil
  | .cons x rest => .cons (replacePlaceholders x mappings) (replaceList rest mappings)
end

mutual
/-- Structural agreement of two values: strings may differ, dicts must
carry the same keys in the same order with agreeing values, lists the
same length with agreeing items, and any other value must be identical. -/
def sameShape : PyVal → PyVal → Bool
  | .vstr _, .vstr _ => true
  | .vint a, .vint b => a == b
  | .vbool a, .vbool b => a == b
  | .vnone, .vnone => true
  | .vdict a, .vdict b => sameShapeEntries a b
  | .vlist a, .vlist b => sameShapeList a b
  | _, _ => false
/-- Structural agreement of dict entries. -/
def sameShapeEntries : PyEntries → PyEntries → Bool
  | .nil, .nil => true
  | .cons k v r, .cons k' v' r' => k == k' && sameShape v v' && sameShapeEntries r r'
  | _, _ => false
/-- Structural agreement of list items. -/
def sameShapeList : PyList → PyList → Bool
  | .nil, .nil => true
  | .cons x r, .cons x' r' => sameShape x x' && sameShapeList r r'
  | _, _ => false
end

mutual
/-- No string anywhere inside the value contains any token of the table. -/
def noTok (tbl : Table) : PyVal → Bool
  | .vstr s => tbl.all (fun pr => !(occursIn pr.1 s))
  | .vdict es => noTokEntries tbl es
  | .vlist xs => noTokList tbl xs
  | _ => true
/-- noTok over dict entries. -/
def noTokEntries (tbl : Table) : PyEntries → Bool
  | .nil => true
  | .cons _ v rest => noTok tbl v && noTokEntries tbl rest
/-- noTok over list items. -/
def noTokList (tbl : Table) : PyList → Bool
  | .nil => true
  | .cons x rest => noTok tbl x && noTokList tbl rest
end

theorem pyReplaceF_nil (p v : List Char) (fuel : Nat) : pyReplaceF p v fuel [] = [] := by
  cases fuel <;> rfl

theorem pyReplaceF_irrel (p v : List Char) :
    ∀ (n m : Nat) (s : List Char), s.length ≤ n → s.length ≤ m →
      pyReplaceF p v n s = pyReplaceF p v m s := by
  intro n
  induction n with
  | zero =>
    intro m s hn _
    have hs : s = [] := List.length_eq_zero.mp (Nat.le_zero.mp hn)
    subst hs
    simp [pyReplaceF_nil]
  | succ n ih =>
    intro m s hn hm
    cases s with
    | nil => simp [pyReplaceF_nil]
    | cons c s' =>
      cases m with
      | zero => simp at hm
      | succ m' =>
        simp only [pyReplaceF]
        by_cases h : p ≠ [] ∧ p.isPrefixOf (c :: s')
        · rw [if_pos h, if_pos h]
          have hlen : (List.drop (p.length - 1) s').length ≤ s'.length := by
            rw [List.length_drop]; exact Nat.sub_le _ _
          have hn' : s'.length ≤ n := Nat.le_of_succ_le_succ hn
          have hm' : s'.length ≤ m' := Nat.le_of_succ_le_succ hm
          rw [ih m' _ (le_trans hlen hn') (le_trans hlen hm')]
        · rw [if_neg h, if_neg h]
          rw [ih m' s' (Nat.le_of_succ_le_succ hn) (Nat.le_of_succ_le_succ hm)]

theorem pyReplace_nil (p v : List Char) : pyReplace p v [] = [] := rfl

theorem pyReplace_cons (p v : List Char) (c : Char) (s : List Char) :
    pyReplace p v (c :: s) =
      if p ≠ [] ∧ p.isPrefixOf (c :: s) then
        v ++ pyReplace p v (List.drop (p.length - 1) s)
      else c :: pyReplace p v s := by
  show pyReplaceF p v (s.length + 1) (c :: s) = _
  simp only [pyReplaceF]
  by_cases h : p ≠ [] ∧ p.isPrefixOf (c :: s)
  · rw [if_pos h, if_pos h]
    have hlen : (List.drop (p.length - 1) s).length ≤ s.length := by
      rw [List.length_drop]; exact Nat.sub_le _ _
    rw [pyReplaceF_irrel p v s.length _ _ hlen le_rfl]
    rfl
  · rw [if_neg h, if_neg h]
    rfl

theorem nil_isPrefixOf (s : List Char) : ([] : List Char).isPrefixOf s = true := by
  cases s <;> rfl

theorem isPrefixOf_self_append (p s : List Char) : p.isPrefixOf (p ++ s) = true := by
  induction p with
  | nil => exact nil_isPrefixOf _
  | cons a as ih => simp [List.isPrefixOf, ih]

theorem isPrefixOf_head {p0 : Char} {p' s : List Char} {c : Char}
    (h : (p0 :: p').isPrefixOf (c :: s) = true) : p0 = c ∧ p'.isPrefixOf s = true := by
  simpa [List.isPrefixOf] using h

theorem not_isPrefixOf_cons_of_ne {p0 c : Char} (p' s : List Char)
    (h : p0 ≠ c) : (p0 :: p').isPrefixOf (c :: s) = false := by
  simp [List.isPrefixOf, h]

theorem length_le_of_isPrefixOf : ∀ {p s : List Char}, p.isPrefixOf s = true →
    p.length ≤ s.length
  | [], _, _ => Nat.zero_le _
  | _ :: _, [], h => by simp [List.isPrefixOf] at h
  | p0 :: p', c :: s, h => by
    obtain ⟨_, h2⟩ := isPrefixOf_head h
    exact Nat.succ_le_succ (length_le_of_isPrefixOf h2)

theorem append_drop_of_isPrefixOf : ∀ (p s : List Char), p.isPrefixOf s = true →
    p ++ List.drop p.length s = s
  | [], _, _ => rfl
  | _ :: _, [], h => by simp [List.isPrefixOf] at h
  | p0 :: p', c :: s, h => by
    obtain ⟨h1, h2⟩ := isPrefixOf_head h
    subst h1
    simpa using append_drop_of_isPrefixOf p' s h2

theorem prefixTotal : ∀ (p t s : List Char), p.isPrefixOf (t ++ s) = true →
    p.isPrefixOf t = true ∨ t.isPrefixOf p = true
  | p, [], _, _ => Or.inr (by cases p <;> rfl)
  | [], _ :: _, _, _ => Or.inl rfl
  | p0 :: p', b :: bs, s, h => by
    obtain ⟨h1, h2⟩ := isPrefixOf_head h
    subst h1
    rcases prefixTotal p' bs s h2 with h3 | h3
    · exact Or.inl (by simp [List.isPrefixOf, h3])
    · exact Or.inr (by simp [List.isPrefixOf, h3])

theorem eq_of_isPrefixOf_le {p s : List Char} (h : p.isPrefixOf s = true)
    (hl : s.length ≤ p.length) : p = s := by
  have := append_drop_of_isPrefixOf p s h
  have hd : List.drop p.length s = [] :=
    List.drop_eq_nil_of_le hl
  rw [hd, List.append_nil] at this
  exact this

theorem occursIn_cons (p : List Char) (c : Char) (s : List Char) :
    occursIn p (c :: s) = (p.isPrefixOf (c :: s) || occursIn p s) := rfl

theorem occursIn_of_isPrefixOf {p s : List Char} (h : p.isPrefixOf s = true) :
    occursIn p s = true := by
  cases s with
  | nil =>
    cases p with
    | nil => rfl
    | cons a as => simp [List.isPrefixOf] at h
  | cons c s' => simp [occursIn_cons, h]

theorem pyReplace_of_not_occurs {p : List Char} (v : List Char) :
    ∀ {s : List Char}, occursIn p s = false → pyReplace p v s = s := by
  intro s
  induction s with
  | nil => intro _; rfl
  | cons c s' ih =>
    intro h
    rw [occursIn_cons, Bool.or_eq_false_iff] at h
    rw [pyReplace_cons, if_neg (fun hc => by rw [hc.2] at h; exact absurd h.1 (by simp)),
      ih h.2]

theorem occursIn_append_of_head_notin {p0 : Char} {p' y : List Char}
    (hy : occursIn (p0 :: p') y = false) :
    ∀ {x : List Char}, p0 ∉ x → occursIn (p0 :: p') (x ++ y) = false := by
  intro x
  induction x with
  | nil => intro _; simpa using hy
  | cons c x' ih =>
    intro hmem
    have hne : p0 ≠ c := fun h => hmem (by simp [h])
    rw [List.cons_append, occursIn_cons, not_isPrefixOf_cons_of_ne _ _ hne,
      ih (fun h => hmem (List.mem_cons_of_mem _ h))]
    rfl

theorem dropWhile_append_last (p : Char → Bool) {c : Char} (h : p c = false) :
    ∀ a : List Char, List.dropWhile p (a ++ [c]) = List.dropWhile p a ++ [c] := by
  intro a
  induction a with
  | nil => simp [List.dropWhile_cons, h]
  | cons x a' ih =>
    by_cases hx : p x
    · simp [List.dropWhile_cons, hx, ih]
    · simp [List.dropWhile_cons, hx]

theorem dropWhile_replicate_append (p : Char → Bool) {a : Char} (h : p a = true)
    (l : List Char) : ∀ n, List.dropWhile p (List.replicate n a ++ l) = List.dropWhile p l := by
  intro n
  induction n with
  | zero => simp
  | succ n ih => simp [List.replicate_succ, List.dropWhile_cons, h, ih]

theorem revdrop_cons (p : Char → Bool) {c : Char} (h : p c = false) (l : List Char) :
    ((c :: l).reverse.dropWhile p).reverse = c :: (l.reverse.dropWhile p).reverse := by
  rw [List.reverse_cons, dropWhile_append_last p h, List.reverse_append]
  rfl

theorem dropWhile_id_of_head (p : Char → Bool) {c : Char} {l : List Char}
    (hh : l.head? = some c) (h : p c = false) : List.dropWhile p l = l := by
  cases l with
  | nil => rfl
  | cons x l' =>
    have : x = c := by simpa using hh
    subst this
    simp [List.dropWhile_cons, h]

theorem revdrop_id_of_getLast (p : Char → Bool) {c : Char} {l : List Char}
    (hh : l.getLast? = some c) (h : p c = false) :
    (l.reverse.dropWhile p).reverse = l := by
  have hrev : l.reverse.head? = some c := by rw [List.head?_reverse, hh]
  rw [dropWhile_id_of_head p hrev h, List.reverse_reverse]

theorem mem_dropWhile_of_mem (p : Char → Bool) {c : Char} (h : p c = false) :
    ∀ {l : List Char}, c ∈ l → c ∈ l.dropWhile p := by
  intro l
  induction l with
  | nil => intro hc; exact absurd hc (by simp)
  | cons x l' ih =>
    intro hc
    by_cases hx : p x
    · rw [List.dropWhile_cons, if_pos hx]
      rcases List.mem_cons.mp hc with hcx | hcl
      · subst hcx; rw [hx] at h; exact absurd h (by simp)
      · exact ih hcl
    · rwa [List.dropWhile_cons, if_neg hx]

theorem colon_mem_pyStrip {s : List Char} (h : ':' ∈ s) : ':' ∈ pyStrip s := by
  have h1 : ':' ∈ pyLstrip s := mem_dropWhile_of_mem isPySpace (by decide) h
  unfold pyStrip pyRstrip
  rw [List.mem_reverse]
  exact mem_dropWhile_of_mem isPySpace (by decide) (by rwa [List.mem_reverse])

theorem colon_mem_pyLower {s : List Char} (h : ':' ∈ s) : ':' ∈ pyLower s := by
  unfold pyLower
  exact List.mem_map.mpr ⟨':', h, by decide⟩

theorem splitFirst_mem : ∀ {s : List Char} {k v : List Char},
    splitFirst ':' s = some (k, v) → ':' ∈ s := by
  intro s
  induction s with
  | nil => intro k v h; simp [splitFirst] at h
  | cons c s' ih =>
    intro k v h
    by_cases hc : c = ':'
    · simp [hc]
    · rw [splitFirst, if_neg hc] at h
      match hs : splitFirst ':' s' with
      | none => rw [hs] at h; simp at h
      | some p => exact List.mem_cons_of_mem _ (ih hs)

theorem splitFirst_none {s : List Char} (h : ':' ∉ s) : splitFirst ':' s = none := by
  induction s with
  | nil => rfl
  | cons c s' ih =>
    have hc : c ≠ ':' := fun he => h (by simp [he])
    rw [splitFirst, if_neg hc, ih (fun hm => h (List.mem_cons_of_mem _ hm))]
    rfl

theorem pySplitF_ne_nil (sep : List Char) : ∀ (fuel : Nat) (s : List Char),
    pySplitF sep fuel s ≠ [] := by
  intro fuel
  induction fuel with
  | zero => intro s; cases s <;> simp [pySplitF]
  | succ n ih =>
    intro s
    cases s with
    | nil => simp [pySplitF]
    | cons c s' =>
      simp only [pySplitF]
      by_cases h : sep ≠ [] ∧ sep.isPrefixOf (c :: s')
      · rw [if_pos h]; simp
      · rw [if_neg h]
        match hs : pySplitF sep n s' with
        | [] => simp
        | h' :: t => simp

theorem pySplitF_single (sep : List Char) : ∀ (fuel : Nat) (s : List Char),
    s.length ≤ fuel → occursIn sep s = false → pySplitF sep fuel s = [s] := by
  intro fuel
  induction fuel with
  | zero =>
    intro s hl _
    have hs : s = [] := List.length_eq_zero.mp (Nat.le_zero.mp hl)
    subst hs; rfl
  | succ n ih =>
    intro s hl ho
    cases s with
    | nil => rfl
    | cons c s' =>
      rw [occursIn_cons, Bool.or_eq_false_iff] at ho
      simp only [pySplitF]
      rw [if_neg (fun hc => by rw [hc.2] at ho; exact absurd ho.1 (by simp))]
      rw [ih s' (Nat.le_of_succ_le_succ hl) ho.2]

theorem pySplit_single {sep s : List Char} (ho : occursIn sep s = false) :
    pySplit sep s = [s] :=
  pySplitF_single sep s.length s le_rfl ho

/-- The shape every defined token has: nonempty, an open brace first,
exactly one open and one close brace, the close brace last. -/
def tokShapeB (t : List Char) : Bool :=
  decide (t ≠ []) && decide (t.head? = some obr) && decide (t.count obr = 1) &&
    decide (t.count cbr = 1) && decide (t.getLast? = some cbr)

theorem head?_append_left {a : List Char} (b : List Char) (h : a ≠ []) :
    (a ++ b).head? = a.head? := by
  cases a with
  | nil => exact absurd rfl h
  | cons x a' => rfl

theorem getLast?_append_right (l : List Char) {r : List Char} (h : r ≠ []) :
    (l ++ r).getLast? = r.getLast? := by
  rw [← List.head?_reverse, ← List.head?_reverse, List.reverse_append]
  exact head?_append_left _ (by simpa using h)

theorem getLast?_mem {l : List Char} {c : Char} (h : l.getLast? = some c) : c ∈ l := by
  induction l with
  | nil => simp at h
  | cons a l' ih =>
    cases l' with
    | nil =>
      have : a = c := by simpa using h
      simp [this]
    | cons b l'' =>
      rw [List.getLast?_cons_cons] at h
      exact List.mem_cons_of_mem _ (ih h)

theorem tokShapeB_parts {t : List Char} (h : tokShapeB t = true) :
    t ≠ [] ∧ t.head? = some obr ∧ t.count obr = 1 ∧ t.count cbr = 1 ∧
      t.getLast? = some cbr := by
  simpa [tokShapeB, Bool.and_eq_true, decide_eq_true_eq, and_assoc] using h

theorem tokShapeB_cons {t : List Char} (h : tokShapeB t = true) :
    ∃ r, t = obr :: r ∧ obr ∉ r := by
  obtain ⟨hne, hh, hco, -, -⟩ := tokShapeB_parts h
  cases t with
  | nil => exact absurd rfl hne
  | cons a r =>
    have ha : a = obr := by simpa using hh
    subst ha
    refine ⟨r, rfl, ?_⟩
    rw [List.count_cons_self] at hco
    have : r.count obr = 0 := by omega
    exact List.count_eq_zero.mp this

theorem tok_isPrefixOf_false {t1 t2 : List Char} (h1 : tokShapeB t1 = true)
    (h2 : tokShapeB t2 = true) (hne : t1 ≠ t2) : t1.isPrefixOf t2 = false := by
  by_contra hb
  have hp : t1.isPrefixOf t2 = true := by
    cases hv : t1.isPrefixOf t2
    · exact absurd hv hb
    · rfl
  have hsplit := append_drop_of_isPrefixOf t1 t2 hp
  by_cases hrnil : List.drop t1.length t2 = []
  · exact hne (by rw [← hsplit, hrnil, List.append_nil])
  · obtain ⟨-, -, -, hc1, hl1⟩ := tokShapeB_parts h1
    obtain ⟨-, -, -, hc2, hl2⟩ := tokShapeB_parts h2
    have hcnt : t2.count cbr = t1.count cbr + (List.drop t1.length t2).count cbr := by
      conv_lhs => rw [← hsplit]
      rw [List.count_append]
    have hlast : (List.drop t1.length t2).getLast? = some cbr := by
      rw [← getLast?_append_right t1 hrnil, hsplit, hl2]
    have hmem : cbr ∈ List.drop t1.length t2 := getLast?_mem hlast
    have hnz : (List.drop t1.length t2).count cbr ≠ 0 :=
      fun hz => (List.count_eq_zero.mp hz) hmem
    omega

/-- Well-formed substitution input relative to a token set T: every open
brace in the string begins an occurrence of a token of T. -/
inductive WF (T : List (List Char)) : List Char → Prop
  | nil : WF T []
  | lit (c : Char) (s : List Char) : c ≠ obr → WF T s → WF T (c :: s)
  | tok (t : List Char) (s : List Char) : t ∈ T → WF T s → WF T (t ++ s)

theorem pyReplace_lit {t : List Char} (v : List Char) {c : Char}
    (ht : t.head? = some obr) (hc : c ≠ obr) (s : List Char) :
    pyReplace t v (c :: s) = c :: pyReplace t v s := by
  cases t with
  | nil => simp at ht
  | cons a t' =>
    have ha : a = obr := by simpa using ht
    subst ha
    rw [pyReplace_cons, if_neg]
    intro hcon
    rw [not_isPrefixOf_cons_of_ne t' s (fun h => hc h.symm)] at hcon
    exact absurd hcon.2 (by simp)

theorem pyReplace_braceless {t : List Char} (v : List Char)
    (ht : t.head? = some obr) :
    ∀ (u : List Char), obr ∉ u →
      ∀ w, pyReplace t v (u ++ w) = u ++ pyReplace t v w := by
  intro u
  induction u with
  | nil => intro _ w; rfl
  | cons c u' ih =>
    intro hu w
    have hc : c ≠ obr := fun h => hu (by simp [h])
    rw [List.cons_append, pyReplace_lit v ht hc,
      ih (fun h => hu (List.mem_cons_of_mem _ h)) w]
    rfl

theorem pyReplace_tok_match {t : List Char} (v : List Char) (hne : t ≠ [])
    (s : List Char) : pyReplace t v (t ++ s) = v ++ pyReplace t v s := by
  cases t with
  | nil => exact absurd rfl hne
  | cons a t' =>
    rw [List.cons_append, pyReplace_cons,
      if_pos ⟨by simp, by rw [← List.cons_append]; exact isPrefixOf_self_append _ _⟩]
    congr 2
    show List.drop t'.length (t' ++ s) = s
    simp

theorem pyReplace_tok_skip {t t' : List Char} (v : List Char)
    (h1 : tokShapeB t = true) (h2 : tokShapeB t' = true) (hne : t' ≠ t)
    (s : List Char) : pyReplace t' v (t ++ s) = t ++ pyReplace t' v s := by
  obtain ⟨r, htr, hrnb⟩ := tokShapeB_cons h1
  have hnp : ¬(t' ≠ [] ∧ t'.isPrefixOf (t ++ s) = true) := by
    rintro ⟨-, hp⟩
    rcases prefixTotal t' t s hp with hp1 | hp1
    · rw [tok_isPrefixOf_false h2 h1 hne] at hp1
      exact absurd hp1 (by simp)
    · rw [tok_isPrefixOf_false h1 h2 (fun h => hne h.symm)] at hp1
      exact absurd hp1 (by simp)
  subst htr
  rw [List.cons_append, pyReplace_cons, if_neg (by rw [← List.cons_append]; exact hnp)]
  obtain ⟨-, hh2, -, -, -⟩ := tokShapeB_parts h2
  rw [pyReplace_braceless v hh2 r hrnb s]
  rfl

theorem WF_append_braceless {T : List (List Char)} {v : List Char}
    (hv : obr ∉ v) {x : List Char} (hx : WF T x) : WF T (v ++ x) := by
  induction v with
  | nil => exact hx
  | cons c v' ih =>
    exact WF.lit c _ (fun h => hv (by simp [h]))
      (ih (fun h => hv (List.mem_cons_of_mem _ h)))

theorem WF_pyReplace {T : List (List Char)}
    (hT : ∀ x ∈ T, tokShapeB x = true) {t v : List Char}
    (ht : t ∈ T) (hv : obr ∉ v) :
    ∀ {s : List Char}, WF T s → WF T (pyReplace t v s) := by
  intro s hw
  induction hw with
  | nil => rw [pyReplace_nil]; exact WF.nil
  | lit c s' hc _ ih =>
    obtain ⟨-, hh, -, -, -⟩ := tokShapeB_parts (hT t ht)
    rw [pyReplace_lit v hh hc]
    exact WF.lit c _ hc ih
  | tok t' s' ht' _ ih =>
    by_cases he : t' = t
    · subst he
      obtain ⟨hne, -, -, -, -⟩ := tokShapeB_parts (hT t' ht)
      rw [pyReplace_tok_match v hne]
      exact WF_append_braceless hv ih
    · rw [pyReplace_tok_skip v (hT t' ht') (hT t ht) (fun h => he h.symm)]
      exact WF.tok t' _ ht' ih

theorem pyReplace_comm {T : List (List Char)}
    (hT : ∀ x ∈ T, tokShapeB x = true) {t1 t2 v1 v2 : List Char}
    (h1 : t1 ∈ T) (h2 : t2 ∈ T) (hne : t1 ≠ t2)
    (hv1 : obr ∉ v1) (hv2 : obr ∉ v2) :
    ∀ {s : List Char}, WF T s →
      pyReplace t2 v2 (pyReplace t1 v1 s) = pyReplace t1 v1 (pyReplace t2 v2 s) := by
  intro s hw
  obtain ⟨-, hh1, -, -, -⟩ := tokShapeB_parts (hT t1 h1)
  obtain ⟨-, hh2, -, -, -⟩ := tokShapeB_parts (hT t2 h2)
  induction hw with
  | nil => rfl
  | lit c s' hc _ ih =>
    rw [pyReplace_lit v1 hh1 hc, pyReplace_lit v2 hh2 hc,
      pyReplace_lit v2 hh2 hc, pyReplace_lit v1 hh1 hc, ih]
  | tok t s' ht _ ih =>
    obtain ⟨htne, -, -, -, -⟩ := tokShapeB_parts (hT t ht)
    by_cases he1 : t = t1
    · subst he1
      rw [pyReplace_tok_match v1 htne, pyReplace_braceless v2 hh2 v1 hv1,
        pyReplace_tok_skip v2 (hT t ht) (hT t2 h2) (fun h => hne h.symm),
        pyReplace_tok_match v1 htne, ih]
    · by_cases he2 : t = t2
      · subst he2
        rw [pyReplace_tok_match v2 htne, pyReplace_braceless v1 hh1 v2 hv2,
          pyReplace_tok_skip v1 (hT t ht) (hT t1 h1) hne,
          pyReplace_tok_match v2 htne, ih]
      · rw [pyReplace_tok_skip v1 (hT t ht) (hT t1 h1) (fun h => he1 h.symm),
          pyReplace_tok_skip v2 (hT t ht) (hT t2 h2) (fun h => he2 h.symm),
          pyReplace_tok_skip v2 (hT t ht) (hT t2 h2) (fun h => he2 h.symm),
          pyReplace_tok_skip v1 (hT t ht) (hT t1 h1) (fun h => he1 h.symm), ih]

theorem applyTable_cons (pr : List Char × PVal) (rest : Table) (s : List Char) :
    applyTable (pr :: rest) s =
      applyTable rest (if pytruthy pr.2 then pyReplace pr.1 (pyToStr pr.2) s else s) := rfl

theorem WF_step {T : List (List Char)} (hT : ∀ x ∈ T, tokShapeB x = true)
    {pr : List Char × PVal} (hmem : pr.1 ∈ T)
    (hval : pytruthy pr.2 = true → obr ∉ pyToStr pr.2) {s : List Char} (hw : WF T s) :
    WF T (if pytruthy pr.2 then pyReplace pr.1 (pyToStr pr.2) s else s) := by
  by_cases ht : pytruthy pr.2
  · rw [if_pos ht]
    exact WF_pyReplace hT hmem (hval ht) hw
  · rw [if_neg ht]
    exact hw


theorem applyTable_perm {T : List (List Char)}
    (hT : ∀ x ∈ T, tokShapeB x = true) {tbl tbl' : Table}
    (hp : List.Perm tbl tbl') :
    (tbl.map Prod.fst).Nodup → (∀ p ∈ tbl.map Prod.fst, p ∈ T) →
    (∀ pr ∈ tbl, pytruthy pr.2 = true → obr ∉ pyToStr pr.2) →
    ∀ s, WF T s → applyTable tbl s = applyTable tbl' s := by
  induction hp with
  | nil => intro _ _ _ s _; rfl
  | @cons x l1 l2 l12 ih =>
    intro hnd hmem hval s hw
    rw [List.map_cons] at hnd hmem
    have hnd' : (l1.map Prod.fst).Nodup := (List.nodup_cons.mp hnd).2
    have hx1 : x.1 ∈ T := hmem x.1 (List.mem_cons_self _ _)
    have hxv : pytruthy x.2 = true → obr ∉ pyToStr x.2 :=
      hval x (List.mem_cons_self _ _)
    rw [applyTable_cons, applyTable_cons]
    exact ih hnd' (fun p hp' => hmem p (List.mem_cons_of_mem _ hp'))
      (fun pr hpr h => hval pr (List.mem_cons_of_mem _ hpr) h)
      _ (WF_step hT hx1 hxv hw)
  | swap x y l =>
    intro hnd hmem hval s hw
    rw [applyTable_cons, applyTable_cons, applyTable_cons, applyTable_cons]
    congr 1
    have hxy : y.1 ≠ x.1 := by
      rw [List.map_cons, List.map_cons] at hnd
      have h1 := (List.nodup_cons.mp hnd).1
      intro h
      exact h1 (by rw [h]; exact List.mem_cons_self _ _)
    have hy1 : y.1 ∈ T := hmem y.1 (by rw [List.map_cons]; exact List.mem_cons_self _ _)
    have hx1 : x.1 ∈ T := hmem x.1 (by
      rw [List.map_cons, List.map_cons]
      exact List.mem_cons_of_mem _ (List.mem_cons_self _ _))
    by_cases hty : pytruthy y.2
    · by_cases htx : pytruthy x.2
      · rw [if_pos hty, if_pos htx, if_pos hty, if_pos htx]
        exact pyReplace_comm hT hy1 hx1 hxy
          (hval y (List.mem_cons_self _ _) hty)
          (hval x (List.mem_cons_of_mem _ (List.mem_cons_self _ _)) htx) hw
      · rw [if_neg htx, if_neg htx]
    · rw [if_neg hty, if_neg hty]
  | @trans l1 l2 l3 h12 h23 ih12 ih23 =>
    intro hnd hmem hval s hw
    rw [ih12 hnd hmem hval s hw]
    exact ih23 ((h12.map Prod.fst).nodup_iff.mp hnd)
      (fun p hp' => hmem p ((h12.map Prod.fst).mem_iff.mpr hp'))
      (fun pr hpr h => hval pr (h12.mem_iff.mpr hpr) h) s hw

/-- Executable check for WF: scan the string; any open brace must start
an occurrence of a token of T, which is then skipped whole. -/
def wfCheckF (T : List (List Char)) : Nat → List Char → Bool
  | _, [] => true
  | 0, _ => false
  | fuel + 1, c :: s =>
    if c = obr then
      match T.find? (fun t => t.isPrefixOf (c :: s)) with
      | some t => wfCheckF T fuel (List.drop (t.length - 1) s)
      | none => false
    else wfCheckF T fuel s

/-- wfCheck T s decides that every open brace in s begins a token of T. -/
def wfCheck (T : List (List Char)) (s : List Char) : Bool :=
  wfCheckF T s.length s

theorem wfCheck_sound_aux {T : List (List Char)}
    (hT : ∀ x ∈ T, tokShapeB x = true) :
    ∀ (fuel : Nat) (s : List Char), s.length ≤ fuel →
      wfCheckF T fuel s = true → WF T s := by
  intro fuel
  induction fuel with
  | zero =>
    intro s hl _
    have hs : s = [] := List.length_eq_zero.mp (Nat.le_zero.mp hl)
    subst hs
    exact WF.nil
  | succ n ih =>
    intro s hl hc
    cases s with
    | nil => exact WF.nil
    | cons c s' =>
      simp only [wfCheckF] at hc
      by_cases hcb : c = obr
      · rw [if_pos hcb] at hc
        cases hfind : T.find? (fun t => t.isPrefixOf (c :: s')) with
        | none => rw [hfind] at hc; simp at hc
        | some t =>
          rw [hfind] at hc
          have htmem : t ∈ T := List.mem_of_find?_eq_some hfind
          have htp : t.isPrefixOf (c :: s') = true := by
            have := List.find?_some hfind
            simpa using this
          obtain ⟨r, htr, -⟩ := tokShapeB_cons (hT t htmem)
          have hsplit := append_drop_of_isPrefixOf t (c :: s') htp
          have hdrop : List.drop t.length (c :: s') = List.drop (t.length - 1) s' := by
            rw [htr]
            rfl
          rw [hdrop] at hsplit
          have hlen : (List.drop (t.length - 1) s').length ≤ n := by
            have h1 := List.length_drop (t.length - 1) s'
            have h2 : s'.length ≤ n := Nat.le_of_succ_le_succ hl
            omega
          rw [← hsplit]
          exact WF.tok t _ htmem (ih _ hlen hc)
      · rw [if_neg hcb] at hc
        exact WF.lit c s' hcb (ih s' (Nat.le_of_succ_le_succ hl) hc)

theorem wfCheck_sound {T : List (List Char)}
    (hT : ∀ x ∈ T, tokShapeB x = true) {s : List Char}
    (h : wfCheck T s = true) : WF T s :=
  wfCheck_sound_aux hT s.length s le_rfl h

theorem variant_tokens_shape :
    ∀ T ∈ [tokensUser, tokensLevel, tokensXp, tokensMessage],
      ∀ x ∈ T, tokShapeB x = true := by decide

/-- C1 counterexample: with replacement values that are themselves
arbitrary strings, iteration order is observable.  Over the level-variant
table that maps the level token to the literal level-previous token and
the level-previous token to "9", the two iteration orders of the same
(permuted) table produce different outputs on the input consisting of the
level token, refuting order independence for arbitrary table values. -/
theorem c1_counterexample :
    List.Perm
      [(tokLevel, PVal.pstr tokLevelPrevious),
       (tokLevelPrevious, PVal.pstr (("9").data))]
      [(tokLevelPrevious, PVal.pstr (("9").data)),
       (tokLevel, PVal.pstr tokLevelPrevious)] ∧
    applyTable
      [(tokLevel, PVal.pstr tokLevelPrevious),
       (tokLevelPrevious, PVal.pstr (("9").data))] tokLevel = ("9").data ∧
    applyTable
      [(tokLevelPrevious, PVal.pstr (("9").data)),
       (tokLevel, PVal.pstr tokLevelPrevious)] tokLevel = tokLevelPrevious ∧
    ("9").data ≠ tokLevelPrevious :=
  ⟨List.Perm.swap _ _ _, rfl, rfl, by decide⟩

/-- C1 (amended): no defined token is a substring of another defined
token; and iteration order over the table is immaterial for tables drawn
from one Event Context variant whose truthy replacement values contain no
open brace, on input strings whose every open brace begins a defined
token of that variant.  (The unrestricted claim, for arbitrary
replacement values, is refuted by the counterexample.) -/
theorem c1_amended_order_invariance :
    (∀ t1 ∈ allTokens, ∀ t2 ∈ allTokens, t1 ≠ t2 → occursIn t1 t2 = false) ∧
    (∀ T ∈ [tokensUser, tokensLevel, tokensXp, tokensMessage],
      ∀ tbl tbl' : Table, List.Perm tbl tbl' →
        (tbl.map Prod.fst).Nodup →
        (∀ p ∈ tbl.map Prod.fst, p ∈ T) →
        (∀ pr ∈ tbl, pytruthy pr.2 = true → obr ∉ pyToStr pr.2) →
        ∀ s, wfCheck T s = true → applyTable tbl s = applyTable tbl' s) := by
  constructor
  · decide
  · intro T hTmem tbl tbl' hperm hnd hmem hval s hwf
    have hT : ∀ x ∈ T, tokShapeB x = true := variant_tokens_shape T hTmem
    exact applyTable_perm hT hperm hnd hmem hval s (wfCheck_sound hT hwf)

/-- C1 witness: the amended order-independence applied to a concrete
level-variant table with brace-free values, in both orders, on a
well-formed input. -/
theorem c1_witness :
    applyTable
      [(tokLevel, PVal.pstr (("5").data)), (tokLevelPrevious, PVal.pstr (("4").data))]
      (("Lv \x7blevel\x7d after \x7blevel.previous\x7d").data) =
    applyTable
      [(tokLevelPrevious, PVal.pstr (("4").data)), (tokLevel, PVal.pstr (("5").data))]
      (("Lv \x7blevel\x7d after \x7blevel.previous\x7d").data) :=
  c1_amended_order_invariance.2 tokensLevel
    (List.mem_cons_of_mem _ (List.mem_cons_self _ _)) _ _
    (List.Perm.swap _ _ _) (by decide) (by decide) (by decide) _ (by decide)

theorem isPrefixOf_refl (p : List Char) : p.isPrefixOf p = true := by
  have := isPrefixOf_self_append p []
  rwa [List.append_nil] at this

theorem isPrefixOf_cancel : ∀ (a : List Char) {b c : List Char},
    (a ++ b).isPrefixOf (a ++ c) = true → b.isPrefixOf c = true := by
  intro a
  induction a with
  | nil => intro b c h; exact h
  | cons x a' ih =>
    intro b c h
    rw [List.cons_append, List.cons_append] at h
    exact ih (isPrefixOf_head h).2

theorem isPrefixOf_append_left {p a b : List Char}
    (h : p.isPrefixOf (a ++ b) = true) (hl : p.length ≤ a.length) :
    p.isPrefixOf a = true := by
  rcases prefixTotal p a b h with h1 | h1
  · exact h1
  · rw [eq_of_isPrefixOf_le h1 hl]
    exact isPrefixOf_refl _

theorem applyTable_filter_truthy : ∀ (tbl : Table) (s : List Char),
    applyTable tbl s = applyTable (tbl.filter (fun pr => pytruthy pr.2)) s := by
  intro tbl
  induction tbl with
  | nil => intro s; rfl
  | cons pr rest ih =>
    intro s
    by_cases ht : pytruthy pr.2
    · rw [applyTable_cons, if_pos ht, List.filter_cons_of_pos (by simpa using ht),
        applyTable_cons, if_pos ht, ih]
    · rw [applyTable_cons, if_neg ht, List.filter_cons_of_neg (by simpa using ht), ih]


theorem pyReplace_block {t v : List Char} (hsh : tokShapeB t = true) :
    ∀ (x : List Char), occursIn t x = false →
      ∀ r, pyReplace t v (x ++ (t ++ r)) = x ++ (v ++ pyReplace t v r) := by
  obtain ⟨rt, htr, hrtnb⟩ := tokShapeB_cons hsh
  have htne : t ≠ [] := by rw [htr]; simp
  intro x
  induction x with
  | nil =>
    intro _ r
    exact pyReplace_tok_match v htne r
  | cons c x' ih =>
    intro hocc r
    rw [occursIn_cons, Bool.or_eq_false_iff] at hocc
    have hnp : t.isPrefixOf ((c :: x') ++ (t ++ r)) = false := by
      cases hval : t.isPrefixOf ((c :: x') ++ (t ++ r))
      · rfl
      · exfalso
        by_cases hlen : t.length ≤ (c :: x').length
        · have hpx : t.isPrefixOf (c :: x') = true :=
            isPrefixOf_append_left hval hlen
          rw [hocc.1] at hpx
          exact absurd hpx (by simp)
        · have hlt : (c :: x').length ≤ t.length := Nat.le_of_lt (Nat.lt_of_not_le hlen)
          have hax : (c :: x').isPrefixOf t = true := by
            rcases prefixTotal t (c :: x') (t ++ r) hval with h1 | h1
            · rw [eq_of_isPrefixOf_le h1 hlt]
              exact isPrefixOf_refl _
            · exact h1
          have hsp := append_drop_of_isPrefixOf (c :: x') t hax
          have ht2ne : List.drop (c :: x').length t ≠ [] := by
            intro hnil
            rw [hnil, List.append_nil] at hsp
            rw [← hsp] at hlen
            exact hlen le_rfl
          have ht2p : (List.drop (c :: x').length t).isPrefixOf (t ++ r) = true := by
            apply isPrefixOf_cancel (c :: x')
            rw [hsp]
            exact hval
          cases h2 : List.drop (c :: x').length t with
          | nil => exact ht2ne h2
          | cons d t3 =>
            have hd : d = obr := by
              rw [h2] at ht2p
              rw [htr, List.cons_append] at ht2p
              exact (isPrefixOf_head ht2p).1
            have hdrt : d ∈ rt := by
              have hdm : d ∈ List.drop (c :: x').length t := by
                rw [h2]
                exact List.mem_cons_self _ _
              have hteq : List.drop (c :: x').length t = List.drop x'.length rt := by
                rw [htr]
                rfl
              rw [hteq] at hdm
              exact List.drop_subset _ _ hdm
            rw [hd] at hdrt
            exact hrtnb hdrt
    have hnp' : t.isPrefixOf (c :: (x' ++ (t ++ r))) = false := hnp
    show pyReplace t v (c :: (x' ++ (t ++ r))) = c :: (x' ++ (v ++ pyReplace t v r))
    rw [pyReplace_cons,
      if_neg (fun hcon => by rw [hnp'] at hcon; exact absurd hcon.2 (by simp)),
      ih hocc.2 r]

/-- C2 counterexample: the code skips every falsy value, not only null.
The integer 0 is non-null, yet substituting the boost-tier token with a
table mapping it to 0 leaves the token untouched instead of replacing it
with its stringified value "0". -/
theorem c2_counterexample :
    PVal.pint 0 ≠ PVal.pnone ∧
    applyTable [(tokGuildBoostTier, PVal.pint 0)] tokGuildBoostTier = tokGuildBoostTier ∧
    pyToStr (PVal.pint 0) = ("0").data ∧
    tokGuildBoostTier ≠ ("0").data :=
  ⟨by decide, rfl, rfl, by decide⟩

/-- C2 (amended): substitution on a string replaces, for every token
whose mapped value is truthy (non-null, non-zero, non-empty), all its
literal occurrences by the stringified mapped value, while entries with a
falsy value - null included - leave the text untouched; in particular
substituting the guild-icon token against a table mapping it to null
returns the string unchanged. -/
theorem c2_amended_substitution :
    (∀ (tbl : Table) (s : List Char),
      applyTable tbl s = applyTable (tbl.filter (fun pr => pytruthy pr.2)) s) ∧
    (∀ (t : List Char) (val : PVal) (x y z : List Char),
      tokShapeB t = true → pytruthy val = true →
      occursIn t x = false → occursIn t y = false → occursIn t z = false →
      applyTable [(t, val)] (x ++ t ++ y ++ t ++ z) =
        x ++ pyToStr val ++ y ++ pyToStr val ++ z) ∧
    applyTable [(tokGuildIcon, PVal.pnone)] tokGuildIcon = tokGuildIcon := by
  refine ⟨applyTable_filter_truthy, ?_, rfl⟩
  intro t val x y z hsh htr hx hy hz
  have h1 : applyTable [(t, val)] (x ++ t ++ y ++ t ++ z) =
      pyReplace t (pyToStr val) (x ++ t ++ y ++ t ++ z) := by
    rw [applyTable_cons, if_pos htr]
    rfl
  rw [h1]
  have e1 : x ++ t ++ y ++ t ++ z = x ++ (t ++ (y ++ (t ++ z))) := by
    simp [List.append_assoc]
  rw [e1, pyReplace_block hsh x hx (y ++ (t ++ z)),
    pyReplace_block hsh y hy z, pyReplace_of_not_occurs _ hz]
  simp [List.append_assoc]

/-- C2 witness: a truthy two-occurrence replacement and its exact output,
via the amended theorem at a concrete table and string. -/
theorem c2_witness :
    applyTable [(tokLevel, PVal.pstr (("5").data))]
      ((("lv ").data) ++ tokLevel ++ ((" and ").data) ++ tokLevel ++ (("!").data)) =
    (("lv ").data) ++ pyToStr (PVal.pstr (("5").data)) ++ ((" and ").data) ++
      pyToStr (PVal.pstr (("5").data)) ++ (("!").data) :=
  c2_amended_substitution.2.1 tokLevel (PVal.pstr (("5").data)) _ _ _
    (by decide) (by decide) (by decide) (by decide) (by decide)

theorem parseSegs_append : ∀ (l1 l2 : List (List Char)) (d : CardDesc),
    parseSegs (l1 ++ l2) d =
      match parseSegs l1 d with
      | .ok d' => parseSegs l2 d'
      | .error e => .error e := by
  intro l1
  induction l1 with
  | nil => intro l2 d; rfl
  | cons a rest ih =>
    intro l2 d
    simp only [List.cons_append, parseSegs]
    cases hpa : parseSeg d a with
    | ok d' => exact ih l2 d'
    | error e => rfl

theorem parseSeg_malformed {seg : List Char} (d : CardDesc)
    (hsen : pyLower (pyStrip seg) ≠ sentinelStr) (hcol : ':' ∉ seg) :
    parseSeg d seg = .error .MalformedSegment := by
  unfold parseSeg
  rw [if_neg hsen, splitFirst_none hcol]

theorem parseSegs_error_of_bad : ∀ (ss : List (List Char)) (d : CardDesc)
    (seg : List Char), seg ∈ ss → pyLower (pyStrip seg) ≠ sentinelStr →
    ':' ∉ seg → ∃ e, parseSegs ss d = .error e := by
  intro ss
  induction ss with
  | nil => intro d seg hm; exact absurd hm (by simp)
  | cons a rest ih =>
    intro d seg hm hsen hcol
    rcases List.mem_cons.mp hm with he | hm'
    · subst he
      refine ⟨.MalformedSegment, ?_⟩
      show (match parseSeg d seg with
            | .ok d' => parseSegs rest d'
            | .error e => .error e) = _
      rw [parseSeg_malformed d hsen hcol]
    · show ∃ e, (match parseSeg d a with
            | .ok d' => parseSegs rest d'
            | .error e => .error e) = .error e
      cases parseSeg d a with
      | ok d' => exact ih d' seg hm' hsen hcol
      | error e => exact ⟨e, rfl⟩

/-- C3: a non-sentinel segment of the flag string that contains no colon
makes parse fail; when every segment before it parses fine the error is
MalformedSegment; in particular parse of "notakeyvalue" is the
MalformedSegment error and not a descriptor. -/
theorem c3_missing_separator_errors :
    (∀ flags seg, seg ∈ pySplit dvSep flags →
      pyLower (pyStrip seg) ≠ sentinelStr → ':' ∉ seg →
      ∃ e, parse flags = .error e) ∧
    (∀ flags ss1 seg ss2, pySplit dvSep flags = ss1 ++ seg :: ss2 →
      (∃ d, parseSegs ss1 emptyDesc = .ok d) →
      pyLower (pyStrip seg) ≠ sentinelStr → ':' ∉ seg →
      parse flags = .error .MalformedSegment) ∧
    parse (("notakeyvalue").data) = .error .MalformedSegment := by
  refine ⟨?_, ?_, rfl⟩
  · intro flags seg hm hsen hcol
    exact parseSegs_error_of_bad _ emptyDesc seg hm hsen hcol
  · intro flags ss1 seg ss2 hsplit ⟨d, hok⟩ hsen hcol
    unfold parse
    rw [hsplit, parseSegs_append, hok]
    show parseSegs (seg :: ss2) d = _
    show (match parseSeg d seg with
          | .ok d' => parseSegs ss2 d'
          | .error e => .error e) = _
    rw [parseSeg_malformed d hsen hcol]

/-- C3 witness: the general part applied to the concrete flag string
"notakeyvalue". -/
theorem c3_witness : ∃ e, parse (("notakeyvalue").data) = .error e :=
  c3_missing_separator_errors.1 (("notakeyvalue").data) (("notakeyvalue").data)
    (by decide) (by decide) (by decide)

theorem contains_pair_false {c x y : Char} (h1 : c ≠ x) (h2 : c ≠ y) :
    [x, y].contains c = false := by
  have e1 : (c == x) = false := beq_eq_false_iff_ne.mpr h1
  have e2 : (c == y) = false := beq_eq_false_iff_ne.mpr h2
  simp only [List.contains, List.elem, e1, e2]

theorem contains_single_false {c x : Char} (h : c ≠ x) : [x].contains c = false := by
  have e1 : (c == x) = false := beq_eq_false_iff_ne.mpr h
  simp only [List.contains, List.elem, e1]

theorem getLast?_replicate_succ (a : Char) (m : Nat) :
    (List.replicate (m + 1) a).getLast? = some a := by
  rw [← List.head?_reverse, List.reverse_replicate, List.replicate_succ]
  rfl

theorem pyStrip_id {l : List Char} {a b : Char} (hh : l.head? = some a)
    (hl : l.getLast? = some b) (ha : isPySpace a = false)
    (hb : isPySpace b = false) : pyStrip l = l := by
  unfold pyStrip pyLstrip pyRstrip
  rw [dropWhile_id_of_head _ hh ha,
    dropWhile_id_of_head _ (by rw [List.head?_reverse]; exact hl) hb,
    List.reverse_reverse]

theorem head?_pyLower {l : List Char} {c : Char} (h : l.head? = some c) :
    (pyLower l).head? = some (pyToLower c) := by
  cases l with
  | nil => simp at h
  | cons a l' =>
    have : a = c := by simpa using h
    subst this
    rfl

theorem getLast?_pyLower {l : List Char} {c : Char} (h : l.getLast? = some c) :
    (pyLower l).getLast? = some (pyToLower c) := by
  rw [← List.head?_reverse] at h
  rw [← List.head?_reverse, pyLower, ← List.map_reverse]
  exact head?_pyLower h

theorem pyToLower_ne_braces {c : Char} (h1 : c ≠ obr) (h2 : c ≠ cbr) :
    pyToLower c ≠ obr ∧ pyToLower c ≠ cbr := by
  unfold pyToLower
  cases hf : lowerPairs.find? (fun p => p.1 == c) with
  | none => exact ⟨h1, h2⟩
  | some p =>
    have hp : p ∈ lowerPairs := List.mem_of_find?_eq_some hf
    have hall : ∀ q ∈ lowerPairs, q.2 ≠ obr ∧ q.2 ≠ cbr := by decide
    exact hall p hp

theorem pyStripChars_braces {w : List Char} {c0 cl : Char}
    (hh : w.head? = some c0) (hl : w.getLast? = some cl)
    (h0 : [obr, cbr].contains c0 = false) (h1 : [obr, cbr].contains cl = false)
    (n m : Nat) :
    pyStripChars [obr, cbr] (List.replicate n obr ++ (w ++ List.replicate m cbr)) = w := by
  unfold pyStripChars
  have hwne : w ≠ [] := by intro h; rw [h] at hh; simp at hh
  have hstep1 : (w ++ List.replicate m cbr).head? = some c0 := by
    rw [head?_append_left (List.replicate m cbr) hwne]
    exact hh
  rw [dropWhile_replicate_append _ (by decide) _ n,
    dropWhile_id_of_head _ hstep1 h0,
    List.reverse_append, List.reverse_replicate,
    dropWhile_replicate_append _ (by decide) _ m,
    dropWhile_id_of_head _ (by rw [List.head?_reverse]; exact hl) h1,
    List.reverse_reverse]

theorem pyRstripChars_cbr {w : List Char} {cl : Char}
    (hl : w.getLast? = some cl) (h1 : [cbr].contains cl = false) (m : Nat) :
    pyRstripChars [cbr] (w ++ List.replicate m cbr) = w := by
  unfold pyRstripChars
  rw [List.reverse_append, List.reverse_replicate,
    dropWhile_replicate_append _ (by decide) _ m,
    dropWhile_id_of_head _ (by rw [List.head?_reverse]; exact hl) h1,
    List.reverse_reverse]

/-- C4 counterexample: Python strip("{}") and rstrip("}") remove matching
characters repeatedly, not once.  The key "{{title" normalizes to
"title" (both leading braces removed), not to "{title" as one-brace
stripping would give, and the value "A}}" normalizes to "A"; consequently
parse("{{title: A}}") sets the title. -/
theorem c4_counterexample :
    normKey (("\x7b\x7btitle").data) = ("title").data ∧
    normKey (("\x7b\x7btitle").data) ≠ ("\x7btitle").data ∧
    normValue (("A\x7d\x7d").data) = ("A").data ∧
    parse (("\x7b\x7btitle: A\x7d\x7d").data) =
      .ok { emptyDesc with title := some (("A").data) } :=
  ⟨rfl, by decide, rfl, rfl⟩

/-- C4 (amended): parse normalizes the key by trimming whitespace,
lower-casing, and stripping all leading and trailing brace characters
(not exactly one), and the value by trimming and stripping all trailing
close braces; a leading brace on the value is never stripped (the core
below may begin with an open brace and is returned intact). -/
theorem c4_amended_normalization :
    (∀ (core : List Char) (n m : Nat) (c0 cl : Char),
      core.head? = some c0 → core.getLast? = some cl →
      isPySpace c0 = false → c0 ≠ obr → c0 ≠ cbr →
      isPySpace cl = false → cl ≠ obr → cl ≠ cbr →
      normKey (List.replicate n obr ++ (core ++ List.replicate m cbr)) =
        pyLower core) ∧
    (∀ (core : List Char) (m : Nat) (c0 cl : Char),
      core.head? = some c0 → core.getLast? = some cl →
      isPySpace c0 = false → isPySpace cl = false → cl ≠ cbr →
      normValue (core ++ List.replicate m cbr) = core) := by
  constructor
  · intro core n m c0 cl hh hl hs0 hb0 hb0' hsl hbl hbl'
    have hne : core ≠ [] := by intro h; rw [h] at hh; simp at hh
    have hWh : ∃ ch, (List.replicate n obr ++ (core ++ List.replicate m cbr)).head? =
        some ch ∧ isPySpace ch = false := by
      cases n with
      | zero =>
        refine ⟨c0, ?_, hs0⟩
        show (core ++ List.replicate m cbr).head? = some c0
        rw [head?_append_left (List.replicate m cbr) hne]
        exact hh
      | succ n' =>
        refine ⟨obr, ?_, by decide⟩
        rw [List.replicate_succ]
        rfl
    have hWl : ∃ ch, (List.replicate n obr ++ (core ++ List.replicate m cbr)).getLast? =
        some ch ∧ isPySpace ch = false := by
      cases m with
      | zero =>
        refine ⟨cl, ?_, hsl⟩
        show (List.replicate n obr ++ (core ++ [])).getLast? = some cl
        rw [List.append_nil, getLast?_append_right _ hne]
        exact hl
      | succ m' =>
        refine ⟨cbr, ?_, by decide⟩
        have hrep : List.replicate (m' + 1) cbr ≠ [] := by
          rw [List.replicate_succ]
          simp
        rw [getLast?_append_right _ (fun h => hne (List.append_eq_nil.mp h).1),
          getLast?_append_right _ hrep, getLast?_replicate_succ]
    obtain ⟨ch, hWh1, hWh2⟩ := hWh
    obtain ⟨chl, hWl1, hWl2⟩ := hWl
    unfold normKey
    rw [pyStrip_id hWh1 hWl1 hWh2 hWl2]
    have hmap : pyLower (List.replicate n obr ++ (core ++ List.replicate m cbr)) =
        List.replicate n obr ++ (pyLower core ++ List.replicate m cbr) := by
      unfold pyLower
      rw [List.map_append, List.map_append, List.map_replicate, List.map_replicate]
      have e1 : pyToLower obr = obr := by decide
      have e2 : pyToLower cbr = cbr := by decide
      rw [e1, e2]
    rw [hmap]
    obtain ⟨hn1, hn2⟩ := pyToLower_ne_braces hb0 hb0'
    obtain ⟨hm1, hm2⟩ := pyToLower_ne_braces hbl hbl'
    exact pyStripChars_braces (head?_pyLower hh) (getLast?_pyLower hl)
      (contains_pair_false hn1 hn2) (contains_pair_false hm1 hm2) n m
  · intro core m c0 cl hh hl hs0 hsl hbl
    have hne : core ≠ [] := by intro h; rw [h] at hh; simp at hh
    have hWh1 : (core ++ List.replicate m cbr).head? = some c0 := by
      rw [head?_append_left (List.replicate m cbr) hne]
      exact hh
    have hWl : ∃ ch, (core ++ List.replicate m cbr).getLast? = some ch ∧
        isPySpace ch = false := by
      cases m with
      | zero =>
        refine ⟨cl, ?_, hsl⟩
        show (core ++ []).getLast? = some cl
        rw [List.append_nil]
        exact hl
      | succ m' =>
        refine ⟨cbr, ?_, by decide⟩
        have hrep : List.replicate (m' + 1) cbr ≠ [] := by
          rw [List.replicate_succ]
          simp
        rw [getLast?_append_right _ hrep, getLast?_replicate_succ]
    obtain ⟨chl, hWl1, hWl2⟩ := hWl
    unfold normValue
    rw [pyStrip_id hWh1 hWl1 hs0 hWl2]
    exact pyRstripChars_cbr hl (contains_single_false hbl) m

/-- C4 witness: the amended normalization applied to the concrete key
"{title}" (one brace each side) and to the concrete value "{val}}"
whose leading brace survives while both trailing braces go. -/
theorem c4_witness :
    normKey (List.replicate 1 obr ++ ((("title").data) ++ List.replicate 1 cbr)) =
      pyLower (("title").data) ∧
    normValue ((("\x7bval").data) ++ List.replicate 2 cbr) = ("\x7bval").data :=
  ⟨c4_amended_normalization.1 (("title").data) 1 1 't' 'e' (by decide) (by decide)
      (by decide) (by decide) (by decide) (by decide) (by decide) (by decide),
    c4_amended_normalization.2 (("\x7bval").data) 2 obr 'l' (by decide) (by decide)
      (by decide) (by decide) (by decide)⟩

theorem pyLstrip_cons {c : Char} (h : isPySpace c = false) (l : List Char) :
    pyLstrip (c :: l) = c :: l := by
  unfold pyLstrip
  rw [List.dropWhile_cons, if_neg (by simp [h])]

theorem parse_single {seg : List Char} (h : occursIn dvSep seg = false) :
    parse seg = parseSeg emptyDesc seg := by
  unfold parse
  rw [pySplit_single h]
  show (match parseSeg emptyDesc seg with
        | .ok d' => parseSegs [] d'
        | .error e => .error e) = _
  cases parseSeg emptyDesc seg <;> rfl

theorem sentinel_neq_color (s : List Char) :
    pyLower (pyStrip ((("color:").data) ++ s)) ≠ sentinelStr := by
  intro heq
  have hstrip : pyStrip ((("color:").data) ++ s) =
      'c' :: pyRstrip ((("olor:").data) ++ s) := by
    show pyRstrip (pyLstrip ('c' :: ((("olor:").data) ++ s))) = _
    rw [pyLstrip_cons (by decide)]
    exact revdrop_cons isPySpace (by decide) _
  have hlow : pyLower (pyStrip ((("color:").data) ++ s)) =
      'c' :: pyLower (pyRstrip ((("olor:").data) ++ s)) := by
    rw [hstrip]
    rfl
  rw [hlow] at heq
  have hh : sentinelStr.head? = some 'c' := by
    rw [← heq]
    rfl
  exact absurd hh (by decide)

theorem splitFirst_colorPre (s : List Char) :
    splitFirst ':' ((("color:").data) ++ s) = some ((("color").data), s) := rfl

theorem parseSeg_color (s : List Char) :
    parseSeg emptyDesc ((("color:").data) ++ s) =
      match pyIntHex (normValue s) with
      | some n => .ok (setF .color (.fint n) emptyDesc)
      | none => .error .InvalidColor := by
  unfold parseSeg
  rw [if_neg (sentinel_neq_color s), splitFirst_colorPre s]
  rfl

/-- C5: a color segment parses its value as base-16: parse succeeds with
the unclamped integer exactly when int(value, 16) accepts the normalized
value (so out-of-range colors pass through), and fails with InvalidColor
exactly when it does not; parse("{color: FF0000}") stores 0xFF0000 and
parse("{color: zz}") is the InvalidColor error. -/
theorem c5_color_parsing :
    (∀ (s : List Char) (n : Int), occursIn dvSep s = false →
      pyIntHex (normValue s) = some n →
      parse ((("color:").data) ++ s) = .ok (setF .color (.fint n) emptyDesc)) ∧
    (∀ s : List Char, occursIn dvSep s = false →
      pyIntHex (normValue s) = none →
      parse ((("color:").data) ++ s) = .error .InvalidColor) ∧
    parse (("\x7bcolor: FF0000\x7d").data) =
      .ok (setF .color (.fint 16711680) emptyDesc) ∧
    parse (("\x7bcolor: zz\x7d").data) = .error .InvalidColor := by
  have hsplit : ∀ s : List Char, occursIn dvSep s = false →
      occursIn dvSep ((("color:").data) ++ s) = false := by
    intro s hocc
    exact occursIn_append_of_head_notin hocc (by decide)
  refine ⟨?_, ?_, rfl, rfl⟩
  · intro s n hocc hhex
    rw [parse_single (hsplit s hocc), parseSeg_color s, hhex]
  · intro s hocc hhex
    rw [parse_single (hsplit s hocc), parseSeg_color s, hhex]

/-- C5 witness: a seven-digit color value far above 0xFFFFFF is stored
unclamped. -/
theorem c5_witness :
    parse ((("color:").data) ++ ((" 1000000").data)) =
      .ok (setF .color (.fint 16777216) emptyDesc) :=
  c5_color_parsing.1 ((" 1000000").data) 16777216 (by decide) (by decide)

example : replacePlaceholders (.vstr tokLevel) (mapping none none (some 5) none) =
    .vstr (("5").data) := by rfl
example : noTok (mapping none none (some 5) none)
    (.vdict (.cons (("a").data) (.vstr (("hi").data)) .nil)) = true := by rfl

theorem applyTable_id : ∀ (tbl : Table) {s : List Char},
    (∀ pr ∈ tbl, occursIn pr.1 s = false) → applyTable tbl s = s := by
  intro tbl
  induction tbl with
  | nil => intro s _; rfl
  | cons pr rest ih =>
    intro s h
    rw [applyTable_cons]
    by_cases ht : pytruthy pr.2
    · rw [if_pos ht, pyReplace_of_not_occurs _ (h pr (List.mem_cons_self _ _))]
      exact ih (fun q hq => h q (List.mem_cons_of_mem _ hq))
    · rw [if_neg ht]
      exact ih (fun q hq => h q (List.mem_cons_of_mem _ hq))

mutual
theorem sameShape_replace (m : Table) :
    ∀ v : PyVal, sameShape v (replacePlaceholders v m) = true
  | .vstr s => rfl
  | .vint n => by simp [replacePlaceholders, sameShape]
  | .vbool b => by simp [replacePlaceholders, sameShape]
  | .vnone => rfl
  | .vdict es => by
    simp only [replacePlaceholders, sameShape]
    exact sameShapeEntries_replace m es
  | .vlist xs => by
    simp only [replacePlaceholders, sameShape]
    exact sameShapeList_replace m xs
theorem sameShapeEntries_replace (m : Table) :
    ∀ es : PyEntries, sameShapeEntries es (replaceEntries es m) = true
  | .nil => rfl
  | .cons k v rest => by
    simp only [replaceEntries, sameShapeEntries, Bool.and_eq_true]
    exact ⟨⟨by simp, sameShape_replace m v⟩, sameShapeEntries_replace m rest⟩
theorem sameShapeList_replace (m : Table) :
    ∀ xs : PyList, sameShapeList xs (replaceList xs m) = true
  | .nil => rfl
  | .cons x rest => by
    simp only [replaceList, sameShapeList, Bool.and_eq_true]
    exact ⟨sameShape_replace m x, sameShapeList_replace m rest⟩
end

mutual
theorem noTok_replace (m : Table) :
    ∀ v : PyVal, noTok m v = true → replacePlaceholders v m = v
  | .vstr s => fun h => by
    show PyVal.vstr (applyTable m s) = PyVal.vstr s
    congr 1
    apply applyTable_id
    intro pr hpr
    have h' := List.all_eq_true.mp h pr hpr
    simpa using h'
  | .vint n => fun _ => rfl
  | .vbool b => fun _ => rfl
  | .vnone => fun _ => rfl
  | .vdict es => fun h => by
    show PyVal.vdict (replaceEntries es m) = PyVal.vdict es
    congr 1
    exact noTokEntries_replace m es h
  | .vlist xs => fun h => by
    show PyVal.vlist (replaceList xs m) = PyVal.vlist xs
    congr 1
    exact noTokList_replace m xs h
theorem noTokEntries_replace (m : Table) :
    ∀ es : PyEntries, noTokEntries m es = true → replaceEntries es m = es
  | .nil => fun _ => rfl
  | .cons k v rest => fun h => by
    simp only [noTokEntries, Bool.and_eq_true] at h
    simp only [replaceEntries]
    rw [noTok_replace m v h.1, noTokEntries_replace m rest h.2]
theorem noTokList_replace (m : Table) :
    ∀ xs : PyList, noTokList m xs = true → replaceList xs m = xs
  | .nil => fun _ => rfl
  | .cons x rest => fun h => by
    simp only [noTokList, Bool.and_eq_true] at h
    simp only [replaceList]
    rw [noTok_replace m x h.1, noTokList_replace m rest h.2]
end

/-- C6: substitution is total by construction and shape-preserving: on a
dict it preserves every key in order and recurses into every value, on a
list it preserves order and length recursing into every item, any other
value passes through unchanged, and a value containing no table token
anywhere is returned equal to itself. -/
theorem c6_substitute_shape :
    (∀ (m : Table) (v : PyVal), sameShape v (replacePlaceholders v m) = true) ∧
    (∀ (m : Table) (v : PyVal), noTok m v = true → replacePlaceholders v m = v) :=
  ⟨fun m v => sameShape_replace m v, fun m v h => noTok_replace m v h⟩

/-- C6 witness: a token-free nested dict is returned unchanged under the
level table. -/
theorem c6_witness :
    replacePlaceholders (.vdict (.cons (("a").data) (.vstr (("hello").data)) .nil))
      (mapping none none (some 5) none) =
    .vdict (.cons (("a").data) (.vstr (("hello").data)) .nil) :=
  c6_substitute_shape.2 (mapping none none (some 5) none)
    (.vdict (.cons (("a").data) (.vstr (("hello").data)) .nil)) (by rfl)

/-- Whether a segment is a non-sentinel key:value segment whose
normalized key names the field f. -/
def isFldSeg (f : FName) (seg : List Char) : Bool :=
  !(pyLower (pyStrip seg) == sentinelStr) &&
    (match splitFirst ':' seg with
     | some kv => normKey kv.1 == fldName f
     | none => false)

/-- The field value the dispatch stores for raw value v: the normalized
value string, or for color its base-16 integer. -/
def kvFVal (f : FName) (v : List Char) : FVal :=
  match f with
  | .color => .fint ((pyIntHex (normValue v)).getD 0)
  | _ => .fstr (normValue v)

/-- The field value a key:value segment assigns. -/
def segFVal (f : FName) (seg : List Char) : FVal :=
  match splitFirst ':' seg with
  | some kv => kvFVal f kv.2
  | none => .fstr []

/-- The last element of the list satisfying p, if any. -/
def lastSat (p : List Char → Bool) : List (List Char) → Option (List Char)
  | [] => none
  | a :: rest =>
    match lastSat p rest with
    | some r => some r
    | none => if p a then some a else none

theorem lastSat_none {p : List Char → Bool} :
    ∀ {l : List (List Char)}, lastSat p l = none → ∀ b ∈ l, p b = false := by
  intro l
  induction l with
  | nil => intro _ b hb; exact absurd hb (by simp)
  | cons a rest ih =>
    intro h b hb
    simp only [lastSat] at h
    cases hls : lastSat p rest with
    | some r => rw [hls] at h; simp at h
    | none =>
      rw [hls] at h
      rcases List.mem_cons.mp hb with he | hm
      · subst he
        cases hp : p b
        · rfl
        · rw [if_pos hp] at h; simp at h
      · exact ih hls b hm

theorem fnameOf_name : ∀ f : FName, fnameOf (fldName f) = some f := by
  intro f
  cases f <;> rfl

theorem fnameOf_some {key : List Char} {f : FName} (h : fnameOf key = some f) :
    key = fldName f := by
  unfold fnameOf at h
  split_ifs at h with h1 h2 h3 h4 h5 h6 h7 h8 <;>
    injection h with he <;> subst he <;> assumption

theorem getF_setF_ne {f g : FName} (h : f ≠ g) (val : FVal) (d : CardDesc) :
    getF f (setF g val d) = getF f d := by
  cases f <;> cases g <;> cases val <;> first | exact absurd rfl h | rfl

theorem getF_setF_str {f : FName} (h : f ≠ FName.color) (s : List Char) (d : CardDesc) :
    getF f (setF f (.fstr s) d) = some (.fstr s) := by
  cases f <;> first | exact absurd rfl h | rfl

theorem ok_inj {x y : CardDesc}
    (h : (Except.ok x : Except ParseError CardDesc) = Except.ok y) : x = y := by
  injection h

theorem err_ne_ok {e : ParseError} {y : CardDesc}
    (h : (Except.error e : Except ParseError CardDesc) = Except.ok y) : False :=
  Except.noConfusion h


theorem parseKV_preserve {f : FName} {d d' : CardDesc} {k v : List Char}
    (hstep : parseKV d k v = .ok d') (hne : normKey k ≠ fldName f) :
    getF f d' = getF f d := by
  unfold parseKV at hstep
  cases hfn : fnameOf (normKey k) with
  | none =>
    rw [hfn] at hstep
    have he := ok_inj hstep
    rw [← he]
  | some g =>
    have hfg : f ≠ g := by
      intro he
      apply hne
      rw [fnameOf_some hfn, he]
    cases g
    case color =>
      rw [hfn] at hstep
      cases hhx : pyIntHex (normValue v) with
      | some n =>
        rw [hhx] at hstep
        have he := ok_inj hstep
        rw [← he]
        exact getF_setF_ne hfg _ _
      | none =>
        rw [hhx] at hstep
        exact (err_ne_ok hstep).elim
    all_goals
      rw [hfn] at hstep
      have he := ok_inj hstep
      rw [← he]
      exact getF_setF_ne hfg _ _

theorem parseSeg_preserve {f : FName} {d d' : CardDesc} {a : List Char}
    (hstep : parseSeg d a = .ok d') (hnot : isFldSeg f a = false) :
    getF f d' = getF f d := by
  unfold parseSeg at hstep
  by_cases hsen : pyLower (pyStrip a) = sentinelStr
  · rw [if_pos hsen] at hstep
    have he := ok_inj hstep
    rw [← he]
  · rw [if_neg hsen] at hstep
    cases hsp : splitFirst ':' a with
    | none =>
      rw [hsp] at hstep
      exact (err_ne_ok hstep).elim
    | some kv =>
      obtain ⟨k, v⟩ := kv
      rw [hsp] at hstep
      have hstep2 : parseKV d k v = .ok d' := hstep
      have hne : normKey k ≠ fldName f := by
        intro he
        unfold isFldSeg at hnot
        rw [hsp] at hnot
        have hb : (pyLower (pyStrip a) == sentinelStr) = false :=
          beq_eq_false_iff_ne.mpr hsen
        rw [hb] at hnot
        have hnot2 : (normKey k == fldName f) = false := by simpa using hnot
        rw [he] at hnot2
        simp at hnot2
      exact parseKV_preserve hstep2 hne

theorem parseKV_set {f : FName} {d d' : CardDesc} {k v : List Char}
    (hstep : parseKV d k v = .ok d') (hkey : normKey k = fldName f) :
    getF f d' = some (kvFVal f v) := by
  unfold parseKV at hstep
  rw [hkey, fnameOf_name f] at hstep
  cases f
  case color =>
    cases hhx : pyIntHex (normValue v) with
    | some n =>
      rw [hhx] at hstep
      have he := ok_inj hstep
      rw [← he]
      show some (FVal.fint n) = some (kvFVal FName.color v)
      unfold kvFVal
      rw [hhx]
      rfl
    | none =>
      rw [hhx] at hstep
      exact (err_ne_ok hstep).elim
  all_goals
    have he := ok_inj hstep
    rw [← he]
    rfl

theorem parseSeg_set {f : FName} {d d' : CardDesc} {a : List Char}
    (hstep : parseSeg d a = .ok d') (hyes : isFldSeg f a = true) :
    getF f d' = some (segFVal f a) := by
  unfold isFldSeg at hyes
  rw [Bool.and_eq_true] at hyes
  obtain ⟨hsen', hmat⟩ := hyes
  have hsen : pyLower (pyStrip a) ≠ sentinelStr := by
    intro he
    rw [he] at hsen'
    simp at hsen'
  unfold parseSeg at hstep
  rw [if_neg hsen] at hstep
  cases hsp : splitFirst ':' a with
  | none =>
    rw [hsp] at hmat
    simp at hmat
  | some kv =>
    obtain ⟨k, v⟩ := kv
    rw [hsp] at hstep hmat
    have hstep2 : parseKV d k v = .ok d' := hstep
    have hkey : normKey k = fldName f := by simpa using hmat
    unfold segFVal
    rw [hsp]
    show getF f d' = some (kvFVal f v)
    exact parseKV_set hstep2 hkey

theorem parseSegs_preserve {f : FName} : ∀ {ss : List (List Char)} {d d' : CardDesc},
    parseSegs ss d = .ok d' → (∀ a ∈ ss, isFldSeg f a = false) →
    getF f d' = getF f d := by
  intro ss
  induction ss with
  | nil =>
    intro d d' h _
    have he := ok_inj h
    rw [he]
  | cons a rest ih =>
    intro d d' h hall
    simp only [parseSegs] at h
    cases hpa : parseSeg d a with
    | error e =>
      rw [hpa] at h
      exact (err_ne_ok h).elim
    | ok d1 =>
      rw [hpa] at h
      have h' : parseSegs rest d1 = .ok d' := h
      rw [ih h' (fun b hb => hall b (List.mem_cons_of_mem _ hb))]
      exact parseSeg_preserve hpa (hall a (List.mem_cons_self _ _))

theorem parseSegs_lastSat {f : FName} : ∀ {ss : List (List Char)} {d d' : CardDesc}
    {seg : List Char}, parseSegs ss d = .ok d' →
    lastSat (isFldSeg f) ss = some seg →
    getF f d' = some (segFVal f seg) := by
  intro ss
  induction ss with
  | nil =>
    intro d d' seg _ hls
    simp [lastSat] at hls
  | cons a rest ih =>
    intro d d' seg h hls
    simp only [parseSegs] at h
    cases hpa : parseSeg d a with
    | error e =>
      rw [hpa] at h
      exact (err_ne_ok h).elim
    | ok d1 =>
      rw [hpa] at h
      have h' : parseSegs rest d1 = .ok d' := h
      simp only [lastSat] at hls
      cases hlr : lastSat (isFldSeg f) rest with
      | some r =>
        rw [hlr] at hls
        have hrs : r = seg := by simpa using hls
        subst hrs
        exact ih h' hlr
      | none =>
        rw [hlr] at hls
        cases hfa : isFldSeg f a with
        | false =>
          rw [hfa] at hls
          simp at hls
        | true =>
          rw [hfa] at hls
          have has : a = seg := by simpa using hls
          subst has
          rw [parseSegs_preserve h' (lastSat_none hlr)]
          exact parseSeg_set hpa hfa

/-- C7: when a recognized key occurs in several segments of the flag
string, the descriptor field holds the value assigned by the last such
segment (later segments overwrite earlier ones); in particular the parse
of "{title: A}$v{title: B}" has title "B". -/
theorem c7_last_write_wins :
    (∀ (flags : List Char) (f : FName) (d' : CardDesc) (seg : List Char),
      parse flags = .ok d' →
      lastSat (isFldSeg f) (pySplit dvSep flags) = some seg →
      getF f d' = some (segFVal f seg)) ∧
    parse (("\x7btitle: A\x7d$v\x7btitle: B\x7d").data) =
      .ok { emptyDesc with title := some (("B").data) } := by
  refine ⟨?_, rfl⟩
  intro flags f d' seg h hls
  exact parseSegs_lastSat h hls

/-- C7 witness: the general last-write-wins statement applied to the
concrete duplicated-title flag string. -/
theorem c7_witness :
    getF FName.title { emptyDesc with title := some (("B").data) } =
      some (segFVal FName.title (("\x7btitle: B\x7d").data)) :=
  c7_last_write_wins.1 (("\x7btitle: A\x7d$v\x7btitle: B\x7d").data) FName.title
    { emptyDesc with title := some (("B").data) } (("\x7btitle: B\x7d").data)
    (by rfl) (by rfl)

theorem fnameOf_none_of_not_mem {key : List Char} (h : key ∉ recognizedKeys) :
    fnameOf key = none := by
  unfold fnameOf
  split_ifs with h1 h2 h3 h4 h5 h6 h7 h8 <;>
    first
      | rfl
      | exact absurd (by simp [recognizedKeys, *]) h

theorem sentinel_no_colon {seg : List Char} {k v : List Char}
    (hsp : splitFirst ':' seg = some (k, v)) :
    pyLower (pyStrip seg) ≠ sentinelStr := by
  intro he
  have h1 : ':' ∈ seg := splitFirst_mem hsp
  have h2 : ':' ∈ pyLower (pyStrip seg) := colon_mem_pyLower (colon_mem_pyStrip h1)
  rw [he] at h2
  exact absurd h2 (by decide)

/-- C8: a well-formed key:value segment whose normalized key is not one
of the eight recognized field names raises no error and leaves every
descriptor field unchanged: the step returns the descriptor it was
given. -/
theorem c8_unknown_keys_ignored :
    (∀ (d : CardDesc) (seg k v : List Char),
      splitFirst ':' seg = some (k, v) →
      normKey k ∉ recognizedKeys →
      parseSeg d seg = .ok d) ∧
    parse (("\x7bunknown: x\x7d").data) = .ok emptyDesc := by
  refine ⟨?_, rfl⟩
  intro d seg k v hsp hk
  unfold parseSeg
  rw [if_neg (sentinel_no_colon hsp), hsp]
  show parseKV d k v = .ok d
  unfold parseKV
  rw [fnameOf_none_of_not_mem hk]

/-- C8 witness: the unknown key segment "{unknown: x}" leaves the
descriptor as it was. -/
theorem c8_witness : parseSeg emptyDesc (("\x7bunknown: x\x7d").data) = .ok emptyDesc :=
  c8_unknown_keys_ignored.1 emptyDesc (("\x7bunknown: x\x7d").data)
    (("\x7bunknown").data) ((" x\x7d").data) (by rfl) (by decide)

/-- C9: with several event arguments supplied, the table Builder.mapping
builds comes solely from the first truthy argument in the fixed check
order user, level, xp, message: every lower-priority argument can be
replaced by anything, or dropped, without changing the table. -/
theorem c9_first_truthy_priority :
    (∀ (u : UserCtx) (m m2 : Option MsgCtx) (l l2 x x2 : Option Int),
      mapping (some u) m l x = mapping (some u) m2 l2 x2) ∧
    (∀ (m m2 : Option MsgCtx) (l : Int) (x x2 : Option Int), l ≠ 0 →
      mapping none m (some l) x = mapping none m2 (some l) x2) ∧
    (∀ (m m2 : Option MsgCtx) (l : Option Int) (x : Int),
      truthyOptInt l = false → x ≠ 0 →
      mapping none m l (some x) = mapping none m2 none (some x)) ∧
    (∀ (msg : MsgCtx) (l x : Option Int),
      truthyOptInt l = false → truthyOptInt x = false →
      mapping none (some msg) l x = mapping none (some msg) none none) := by
  refine ⟨fun _ _ _ _ _ _ _ => rfl, ?_, ?_, ?_⟩
  · intro m m2 l x x2 hl
    have hb : truthyOptInt (some l) = true := by
      simp [truthyOptInt, hl]
    unfold mapping
    rw [hb]
    simp
  · intro m m2 l x hl hx
    have hb : truthyOptInt (some x) = true := by
      simp [truthyOptInt, hx]
    unfold mapping
    rw [hl, hb]
    simp [truthyOptInt]
  · intro msg l x hl hx
    unfold mapping
    rw [hl, hx]
    simp [truthyOptInt]

/-- C9 witness: with both a level and an xp and a message supplied, only
the level (first truthy in priority) shapes the table. -/
theorem c9_witness :
    mapping none (some ⟨("hi").data, ("u").data, ("t").data⟩) (some 3) (some 7) =
      mapping none none (some 3) none :=
  c9_first_truthy_priority.2.1 (some ⟨("hi").data, ("u").data, ("t").data⟩) none 3
    (some 7) none (by decide)

/-- C10: with no user supplied, a level of 0 (or an xp of 0) behaves as
if the argument were absent: with nothing else supplied the table is
empty, so the level and level.previous (resp. xp) tokens are never
substituted and stay literal in the output string. -/
theorem c10_zero_level_xp_empty :
    (∀ (m : Option MsgCtx) (x : Option Int),
      mapping none m (some 0) x = mapping none m none x) ∧
    (∀ (m : Option MsgCtx) (l : Option Int),
      mapping none m l (some 0) = mapping none m l none) ∧
    mapping none none (some 0) none = [] ∧
    mapping none none none (some 0) = [] ∧
    replacePlaceholders (.vstr (("\x7blevel\x7d \x7blevel.previous\x7d").data))
        (mapping none none (some 0) none) =
      .vstr (("\x7blevel\x7d \x7blevel.previous\x7d").data) := by
  refine ⟨fun m x => rfl, ?_, rfl, rfl, rfl⟩
  intro m l
  cases l with
  | none => rfl
  | some n =>
    unfold mapping
    cases hb : truthyOptInt (some n) <;> rfl
